import Mathlib

/-!
Verification of the DisTrO-style sparse delta codec implemented by the class
CompressDCT in tools/python-tools/expand-distro.py, together with the wire
pipeline of that script's main function.

Tensors are embedded as nested lists of rationals (the code only gathers,
sums and compares values, so exact arithmetic is faithful for the properties
below).  torch operations acting along dim = -1 are embedded row by row.
torch.rand_like is embedded as an arbitrary generator function supplied as a
parameter; torch.topk is embedded with a fixed deterministic tie-break
(larger key first, ties resolved towards the smaller index), one of the
behaviours the unspecified torch tie-breaking admits.
-/

namespace Distro

/-- Ordering on row positions used to model torch.topk(keys, largest=True):
position i comes before position j when its key is strictly larger, or the
keys are equal and i ≤ j (a fixed tie-break). -/
def keyGE (keys : List ℚ) (i j : ℕ) : Prop :=
  keys.getD j 0 < keys.getD i 0 ∨ (keys.getD i 0 = keys.getD j 0 ∧ i ≤ j)

instance keyGE_decidable (keys : List ℚ) : DecidableRel (keyGE keys) := fun i j => by
  unfold keyGE; infer_instance

theorem keyGE_total (keys : List ℚ) : ∀ i j, keyGE keys i j ∨ keyGE keys j i := by
  intro i j
  rcases lt_trichotomy (keys.getD i 0) (keys.getD j 0) with h | h | h
  · exact Or.inr (Or.inl h)
  · rcases Nat.le_total i j with hij | hij
    · exact Or.inl (Or.inr ⟨h, hij⟩)
    · exact Or.inr (Or.inr ⟨h.symm, hij⟩)
  · exact Or.inl (Or.inl h)

theorem keyGE_trans (keys : List ℚ) :
    ∀ i j k, keyGE keys i j → keyGE keys j k → keyGE keys i k := by
  intro i j k hij hjk
  rcases hij with h1 | ⟨h1, h1n⟩ <;> rcases hjk with h2 | ⟨h2, h2n⟩
  · exact Or.inl (h2.trans h1)
  · exact Or.inl (h2 ▸ h1)
  · exact Or.inl (h1 ▸ h2)
  · exact Or.inr ⟨h1.trans h2, h1n.trans h2n⟩

instance keyGE_isTotal (keys : List ℚ) : IsTotal ℕ (keyGE keys) := ⟨keyGE_total keys⟩

instance keyGE_isTrans (keys : List ℚ) : IsTrans ℕ (keyGE keys) :=
  ⟨keyGE_trans keys⟩

/-- All row positions, sorted by decreasing key (fixed tie-break). -/
def sortedIdx (keys : List ℚ) : List ℕ :=
  List.insertionSort (keyGE keys) (List.range keys.length)

/-- Embeds torch.topk(keys, k, dim=-1, largest=True).indices for one row:
the k positions with the largest keys. -/
def topkIndices (k : ℕ) (keys : List ℚ) : List ℕ :=
  (sortedIdx keys).take k

theorem sortedIdx_perm (keys : List ℚ) :
    (sortedIdx keys).Perm (List.range keys.length) :=
  List.perm_insertionSort _ _

theorem sortedIdx_length (keys : List ℚ) : (sortedIdx keys).length = keys.length := by
  simpa using (sortedIdx_perm keys).length_eq

theorem sortedIdx_nodup (keys : List ℚ) : (sortedIdx keys).Nodup :=
  ((sortedIdx_perm keys).symm).nodup (List.nodup_range _)

theorem sortedIdx_sorted (keys : List ℚ) :
    List.Sorted (keyGE keys) (sortedIdx keys) :=
  List.sorted_insertionSort _ _

theorem topkIndices_length (k : ℕ) (keys : List ℚ) :
    (topkIndices k keys).length = min k keys.length := by
  simp [topkIndices, sortedIdx_length]

theorem topkIndices_sublist (k : ℕ) (keys : List ℚ) :
    (topkIndices k keys).Sublist (sortedIdx keys) :=
  List.take_sublist _ _

theorem topkIndices_nodup (k : ℕ) (keys : List ℚ) : (topkIndices k keys).Nodup :=
  (topkIndices_sublist k keys).nodup (sortedIdx_nodup keys)

theorem topkIndices_mem {k : ℕ} {keys : List ℚ} {i : ℕ} (h : i ∈ topkIndices k keys) :
    i < keys.length := by
  have hm : i ∈ sortedIdx keys := (topkIndices_sublist k keys).mem h
  have := (sortedIdx_perm keys).mem_iff.mp hm
  exact List.mem_range.mp this

theorem topkIndices_of_length_le {k : ℕ} {keys : List ℚ} (h : keys.length ≤ k) :
    topkIndices k keys = sortedIdx keys := by
  apply List.take_of_length_le
  rw [sortedIdx_length]; exact h

/-- Full-width top-k selects a permutation of all positions. -/
theorem topkIndices_perm_range {k : ℕ} {keys : List ℚ} (h : keys.length ≤ k) :
    (topkIndices k keys).Perm (List.range keys.length) := by
  rw [topkIndices_of_length_le h]; exact sortedIdx_perm keys

/-- A selected position beats any unselected in-range position in the key order. -/
theorem topkIndices_compare {k : ℕ} {keys : List ℚ} {p j : ℕ}
    (hp : p ∈ topkIndices k keys) (hj : j < keys.length)
    (hjn : j ∉ topkIndices k keys) : keyGE keys p j := by
  have hsort : List.Pairwise (keyGE keys) (sortedIdx keys) := sortedIdx_sorted keys
  have hsplit : sortedIdx keys = topkIndices k keys ++ (sortedIdx keys).drop k :=
    (List.take_append_drop k (sortedIdx keys)).symm
  rw [hsplit] at hsort
  have hmem : j ∈ sortedIdx keys :=
    (sortedIdx_perm keys).mem_iff.mpr (List.mem_range.mpr hj)
  rw [hsplit] at hmem
  rcases List.mem_append.mp hmem with hjt | hjd
  · exact absurd hjt hjn
  · exact (List.pairwise_append.mp hsort).2.2 p hp j hjd

/-- Embeds rand_x.scatter_(dim=-1, index=idx, value=v) for one row. -/
def scatterValue (base : List ℚ) (idx : List ℕ) (v : ℚ) : List ℚ :=
  idx.foldl (fun acc i => acc.set i v) base

theorem scatterValue_nil (base : List ℚ) (v : ℚ) : scatterValue base [] v = base := rfl

theorem scatterValue_cons (base : List ℚ) (i : ℕ) (idx : List ℕ) (v : ℚ) :
    scatterValue base (i :: idx) v = scatterValue (base.set i v) idx v := rfl

theorem scatterValue_length (idx : List ℕ) (base : List ℚ) (v : ℚ) :
    (scatterValue base idx v).length = base.length := by
  induction idx generalizing base with
  | nil => rfl
  | cons i is ih => rw [scatterValue_cons, ih, List.length_set]

theorem scatterValue_getD (idx : List ℕ) (base : List ℚ) (v : ℚ) {j : ℕ}
    (hj : j < base.length) :
    (scatterValue base idx v).getD j 0 = if j ∈ idx then v else base.getD j 0 := by
  induction idx generalizing base with
  | nil => simp [scatterValue_nil]
  | cons i is ih =>
    rw [scatterValue_cons]
    have hjset : j < (base.set i v).length := by rwa [List.length_set]
    rw [ih _ hjset]
    by_cases hmem : j ∈ is
    · simp [hmem]
    · have hset : (base.set i v).getD j 0 = if i = j then v else base.getD j 0 := by
        rw [List.getD_eq_getElem _ _ hjset, List.getElem_set,
          List.getD_eq_getElem _ _ hj]
      rw [if_neg hmem, hset]
      by_cases hij : i = j
      · simp [hij]
      · have : j ∉ i :: is := by
          intro hc
          rcases List.mem_cons.mp hc with hc | hc
          · exact hij hc.symm
          · exact hmem hc
        simp [this, hij]

/-- Embeds torch.gather(x, dim=-1, index=idx) for one row. -/
def gatherRow (r : List ℚ) (idx : List ℕ) : List ℚ :=
  idx.map (fun i => r.getD i 0)

theorem gatherRow_length (r : List ℚ) (idx : List ℕ) :
    (gatherRow r idx).length = idx.length := by
  simp [gatherRow]

/-- Embeds x.scatter_add_(dim=-1, index=idx, src=val) for one row of a
zero-initialised (or arbitrary) base row: every value is added into the
accumulator at its index, in index-list order.  Like torch, index entries
beyond the length of src do not exist (the embedding stops). -/
def scatterAddRow (base : List ℚ) : List ℕ → List ℚ → List ℚ
  | i :: is, v :: vs => scatterAddRow (base.set i (base.getD i 0 + v)) is vs
  | _, _ => base

theorem scatterAddRow_nil_left (base : List ℚ) (vs : List ℚ) :
    scatterAddRow base [] vs = base := by
  cases vs <;> rfl

theorem scatterAddRow_nil_right (base : List ℚ) (is : List ℕ) :
    scatterAddRow base is [] = base := by
  cases is <;> rfl

theorem scatterAddRow_cons (base : List ℚ) (i : ℕ) (is : List ℕ) (v : ℚ) (vs : List ℚ) :
    scatterAddRow base (i :: is) (v :: vs)
      = scatterAddRow (base.set i (base.getD i 0 + v)) is vs := rfl

theorem scatterAddRow_length (is : List ℕ) (vs : List ℚ) (base : List ℚ) :
    (scatterAddRow base is vs).length = base.length := by
  induction is generalizing vs base with
  | nil => rw [scatterAddRow_nil_left]
  | cons i is ih =>
    cases vs with
    | nil => rw [scatterAddRow_nil_right]
    | cons v vs => rw [scatterAddRow_cons, ih, List.length_set]

theorem scatterAddRow_append (i1 i2 : List ℕ) (v1 v2 : List ℚ) (base : List ℚ)
    (h : i1.length = v1.length) :
    scatterAddRow base (i1 ++ i2) (v1 ++ v2)
      = scatterAddRow (scatterAddRow base i1 v1) i2 v2 := by
  induction i1 generalizing v1 base with
  | nil =>
    cases v1 with
    | nil => rfl
    | cons v vs => exact absurd h (by simp)
  | cons i is ih =>
    cases v1 with
    | nil => exact absurd h (by simp)
    | cons v vs =>
      rw [List.cons_append, List.cons_append, scatterAddRow_cons, scatterAddRow_cons]
      exact ih vs _ (by simpa using h)

/-- Characterisation of one-row scatter-add: position j accumulates the base
entry plus the sum of all values whose paired index equals j. -/
theorem scatterAddRow_getD (is : List ℕ) (vs : List ℚ) (base : List ℚ)
    (hb : ∀ p ∈ is.zip vs, p.1 < base.length) {j : ℕ} (hj : j < base.length) :
    (scatterAddRow base is vs).getD j 0
      = base.getD j 0 + (((is.zip vs).filter (fun p => p.1 = j)).map Prod.snd).sum := by
  induction is generalizing vs base with
  | nil => simp [scatterAddRow_nil_left]
  | cons i is ih =>
    cases vs with
    | nil => simp [scatterAddRow_nil_right]
    | cons v vs =>
      rw [scatterAddRow_cons]
      have hi : i < base.length := hb (i, v) (by simp)
      have hjset : j < (base.set i (base.getD i 0 + v)).length := by
        rwa [List.length_set]
      have hbset : ∀ p ∈ is.zip vs, p.1 < (base.set i (base.getD i 0 + v)).length := by
        intro p hp
        rw [List.length_set]
        exact hb p (by simp [hp])
      rw [ih vs _ hbset hjset]
      have hset : (base.set i (base.getD i 0 + v)).getD j 0
          = if i = j then base.getD i 0 + v else base.getD j 0 := by
        rw [List.getD_eq_getElem _ _ hjset, List.getElem_set]
        split
        · rename_i hij
          rw [List.getD_eq_getElem _ _ hi]
        · rw [List.getD_eq_getElem _ _ hj]
      by_cases hij : i = j
      · have hf : List.filter (fun p => decide (p.1 = j)) ((i, v) :: is.zip vs)
            = (i, v) :: List.filter (fun p => decide (p.1 = j)) (is.zip vs) := by
          simp [List.filter_cons, hij]
        rw [List.zip_cons_cons, hf, hset, if_pos hij]
        simp [add_assoc, hij]
      · have hf : List.filter (fun p => decide (p.1 = j)) ((i, v) :: is.zip vs)
            = List.filter (fun p => decide (p.1 = j)) (is.zip vs) := by
          simp [List.filter_cons, hij]
        rw [List.zip_cons_cons, hf, hset, if_neg hij]

theorem zipWith_add_replicate_zero (r : List ℚ) :
    List.zipWith (· + ·) (List.replicate r.length (0 : ℚ)) r = r := by
  apply List.ext_getElem
  · simp
  · intro n h1 h2
    rw [List.getElem_zipWith, List.getElem_replicate, zero_add]

theorem range_map_getD {α : Type _} (l : List α) (d : α) :
    (List.range l.length).map (fun i => l.getD i d) = l := by
  apply List.ext_getElem
  · simp
  · intro n h1 h2
    rw [List.getElem_map, List.getElem_range, List.getD_eq_getElem l d h2]

theorem zipWith_eq_range_map {α β γ : Type _} (g : α → β → γ) (l : List α) (m : List β)
    (da : α) (db : β) (h : l.length = m.length) :
    List.zipWith g l m
      = (List.range l.length).map (fun i => g (l.getD i da) (m.getD i db)) := by
  apply List.ext_getElem
  · simp [h]
  · intro n h1 h2
    have hn : n < l.length := by
      rw [List.length_zipWith, ← h, min_self] at h1; exact h1
    have hm : n < m.length := h ▸ hn
    rw [List.getElem_zipWith, List.getElem_map, List.getElem_range,
      List.getD_eq_getElem l da hn, List.getD_eq_getElem m db hm]

/-- One-row core of the lossless round-trip: scatter-adding, into any base row,
values gathered at a permutation of all the columns adds the source row to the
base elementwise. -/
theorem scatterAddRow_perm_gather (idx : List ℕ) (r base : List ℚ)
    (hperm : idx.Perm (List.range r.length)) (hb : base.length = r.length) :
    scatterAddRow base idx (gatherRow r idx) = List.zipWith (· + ·) base r := by
  apply List.ext_getElem
  · rw [scatterAddRow_length, List.length_zipWith, hb, min_self]
  · intro j h1 h2
    have hjb : j < base.length := by rwa [scatterAddRow_length] at h1
    have hjr : j < r.length := hb ▸ hjb
    have hmem : ∀ p ∈ idx.zip (gatherRow r idx), p.1 < base.length := by
      intro p hp
      have h1 := (List.of_mem_zip hp).1
      have h2 := hperm.mem_iff.mp h1
      rw [hb]
      exact List.mem_range.mp h2
    have hchar := scatterAddRow_getD idx (gatherRow r idx) base hmem hjb
    rw [← List.getD_eq_getElem _ 0 h1, hchar]
    have hzip : idx.zip (gatherRow r idx) = idx.map (fun i => (i, r.getD i 0)) := by
      have hz := List.zip_map' id (fun i => r.getD i 0) idx
      simpa [gatherRow] using hz
    have hpred : ((fun p : ℕ × ℚ => decide (p.1 = j)) ∘ (fun i : ℕ => (i, r.getD i 0)))
        = (fun i => decide (i = j)) := rfl
    have hcount : idx.count j = 1 := by
      rw [hperm.count_eq]
      exact List.count_eq_one_of_mem (List.nodup_range _) (List.mem_range.mpr hjr)
    rw [hzip, List.filter_map, hpred, List.filter_eq, hcount,
      List.getElem_zipWith, ← List.getD_eq_getElem base 0 hjb,
      ← List.getD_eq_getElem r 0 hjr]
    simp

theorem flatten_length_uniform {α : Type _} {L : List (List α)} {W : ℕ}
    (h : ∀ l ∈ L, l.length = W) : L.flatten.length = L.length * W := by
  induction L with
  | nil => simp
  | cons l L ih =>
    simp only [List.flatten_cons, List.length_append, List.length_cons]
    rw [ih (fun x hx => h x (by simp [hx])), h l (by simp)]
    ring

theorem flatten_chunk {α : Type _} {L : List (List α)} {W h : ℕ}
    (hu : ∀ l ∈ L, l.length = W) (hh : h < L.length) :
    (L.flatten.drop (h * W)).take W = L.getD h [] := by
  induction L generalizing h with
  | nil => simp at hh
  | cons l L ih =>
    have hl : l.length = W := hu l (by simp)
    cases h with
    | zero =>
      simp only [Nat.zero_mul, List.drop_zero, List.flatten_cons]
      rw [← hl, List.take_left]
      rfl
    | succ h =>
      have hkey : (h + 1) * W = l.length + h * W := by rw [hl]; ring
      rw [List.flatten_cons, hkey, List.drop_append]
      have hres := ih (fun x hx => hu x (by simp [hx])) (by simpa using hh)
      simpa [List.getD_cons_succ] using hres

theorem flatten_getD_uniform {α : Type _} {L : List (List α)} {W o x : ℕ} (d : α)
    (hu : ∀ l ∈ L, l.length = W) (ho : o < L.length) (hx : x < W) :
    L.flatten.getD (o * W + x) d = (L.getD o []).getD x d := by
  induction L generalizing o with
  | nil => simp at ho
  | cons l L ih =>
    have hl : l.length = W := hu l (by simp)
    cases o with
    | zero =>
      have hxl : x < l.length := hl ▸ hx
      simp only [Nat.zero_mul, Nat.zero_add, List.flatten_cons]
      rw [List.getD_append _ _ _ _ hxl]
      rfl
    | succ o =>
      have hkey : (o + 1) * W + x = l.length + (o * W + x) := by rw [hl]; ring
      rw [List.flatten_cons, hkey, List.getD_append_right l _ d _ (by omega)]
      have hres := ih (fun y hy => hu y (by simp [hy])) (by simpa using ho)
      simpa [List.getD_cons_succ] using hres

/-- Codec parameters: the fields self.topk and self.randk of CompressDCT. -/
structure Cfg where
  topk : ℕ
  randk : ℕ
  deriving DecidableEq

/-- CompressDCT.__init__(topk, randk): stores the requested values unchanged.
The source body contains "if topk == 0 and randk == 0: topk = 1", but that
statement assigns to the local parameter topk, not to self.topk, so the
stored configuration is exactly the requested one. -/
def initDCT (topk randk : ℕ) : Cfg := { topk := topk, randk := randk }

/-- Per-row top-k step of compress: torch.topk(x.abs(), k=topk, dim=-1,
largest=True).indices for one row. -/
def topIdxRow (tk : ℕ) (r : List ℚ) : List ℕ :=
  topkIndices tk (r.map (fun v => |v|))

/-- Per-row random-k step of compress: the torch.rand_like row is poisoned
with -1 at the positions already selected by top-k (rand_x.scatter_), then
the randk largest survivors are taken. -/
def randIdxRow (rk : ℕ) (topSel : List ℕ) (randRow : List ℚ) : List ℕ :=
  topkIndices rk (scatterValue randRow topSel (-1))

/-- The all_idx list of one compressed row: the top-k index list followed by
the random index list, with the branches of the source on which of topk and
randk are positive. -/
def allIdxRow (tk rk : ℕ) (randRow r : List ℚ) : List ℕ :=
  if 0 < tk ∧ 0 < rk then topIdxRow tk r ++ randIdxRow rk (topIdxRow tk r) randRow
  else if 0 < tk then topIdxRow tk r
  else randIdxRow rk [] randRow

/-- One row of CompressDCT.compress after the per-call capping of topk and
randk: the combined index list and the values gathered at those indices. -/
def compressRow (tk rk : ℕ) (randRow r : List ℚ) : List ℕ × List ℚ :=
  (allIdxRow tk rk randRow r, gatherRow r (allIdxRow tk rk randRow r))

/-- topk = min(self.topk, totalk), the per-call cap of compress. -/
def capTk (cfg : Cfg) (totalk : ℕ) : ℕ := min cfg.topk totalk

/-- randk = min(self.randk, remainingk) with remainingk = totalk - topk. -/
def capRk (cfg : Cfg) (totalk : ℕ) : ℕ := min cfg.randk (totalk - capTk cfg totalk)

/-- Materialises torch.rand_like(x) for a 2D view from a generator g. -/
def randLike2 (g : ℕ → ℕ → ℚ) (m : List (List ℚ)) : List (List ℚ) :=
  (List.range m.length).map (fun i => (List.range (m.getD i []).length).map (g i))

/-- Materialises torch.rand_like(x) for a 3D view from a generator f. -/
def randLike3 (f : ℕ → ℕ → ℕ → ℚ) (t : List (List (List ℚ))) : List (List (List ℚ)) :=
  (List.range t.length).map (fun y => randLike2 (f y) (t.getD y []))

/-- CompressDCT.compress for a rank-1 tensor: totalk = v.length, the
requested topk and randk are capped, and the index/value lists of the single
row are produced.  When both capped values are zero the source never assigns
all_idx (it stays None) and the final torch.gather call fails: embedded as
none. -/
def compress1 (cfg : Cfg) (g : ℕ → ℚ) (v : List ℚ) : Option (List ℕ × List ℚ × ℕ) :=
  if capTk cfg v.length = 0 ∧ capRk cfg v.length = 0 then none
  else some
    ((compressRow (capTk cfg v.length) (capRk cfg v.length) ((List.range v.length).map g) v).1,
      (compressRow (capTk cfg v.length) (capRk cfg v.length) ((List.range v.length).map g) v).2,
      v.length)

/-- The per-row compression of a 2D view with the already-capped topk and
randk: row i pairs with row i of the materialised random tensor. -/
def rows2 (tk rk : ℕ) (g : ℕ → ℕ → ℚ) (x : List (List ℚ)) : List (List ℕ × List ℚ) :=
  (x.zip (randLike2 g x)).map (fun p => compressRow tk rk p.2 p.1)

/-- CompressDCT.compress for a rank-2 tensor: totalk = x.shape[-1], each row
is compressed independently with the same capped topk/randk, and the original
shape is returned alongside. -/
def compress2 (cfg : Cfg) (g : ℕ → ℕ → ℚ) (x : List (List ℚ)) :
    Option (List (List ℕ) × List (List ℚ) × ℕ × ℕ) :=
  if capTk cfg (x.headD []).length = 0 ∧ capRk cfg (x.headD []).length = 0 then none
  else some
    ((rows2 (capTk cfg (x.headD []).length) (capRk cfg (x.headD []).length) g x).map Prod.fst,
      (rows2 (capTk cfg (x.headD []).length) (capRk cfg (x.headD []).length) g x).map Prod.snd,
      x.length, (x.headD []).length)

/-- One slice of the einops rearrange "y h x w -> y x (h w)" used by
compress/decompress for rank-4 tensors: for a slice ay with dims [I][H][W]
it yields the [H][(I*W)] block b with b[x][h*W + w] = ay[h][x][w]. -/
def rearrangeSlice (ay : List (List (List ℚ))) : List (List ℚ) :=
  (List.range (ay.headD []).length).map
    (fun x => (ay.map (fun ah => ah.getD x [])).flatten)

/-- The einops rearrange "y h x w -> y x (h w)". -/
def rearrange4 (a : List (List (List (List ℚ)))) : List (List (List ℚ)) :=
  a.map rearrangeSlice

/-- One slice of the inverse einops rearrange "y x (h w) -> y h x w" with the
kernel-width w fixed to W (decompress passes w = xshape[-1]). -/
def invRearrangeSlice (W : ℕ) (b : List (List ℚ)) : List (List (List ℚ)) :=
  (List.range ((b.headD []).length / W)).map
    (fun h => b.map (fun row => (row.drop (h * W)).take W))

/-- The inverse einops rearrange "y x (h w) -> y h x w". -/
def invRearrange4 (W : ℕ) (t : List (List (List ℚ))) : List (List (List (List ℚ))) :=
  t.map (invRearrangeSlice W)

/-- The per-row compression of a 3D view with the already-capped topk and
randk. -/
def rows3 (tk rk : ℕ) (f : ℕ → ℕ → ℕ → ℚ) (v : List (List (List ℚ))) :
    List (List (List ℕ × List ℚ)) :=
  (v.zip (randLike3 f v)).map
    (fun s => (s.1.zip s.2).map (fun p => compressRow tk rk p.2 p.1))

/-- x.shape[-1] of the rearranged 3D view of a rank-4 tensor. -/
def viewTotalk (a : List (List (List (List ℚ)))) : ℕ :=
  (((rearrange4 a).headD []).headD []).length

/-- CompressDCT.compress for a rank-4 tensor: rearrange to the 3D view,
compress every row of the view, and return the original 4D shape. -/
def compress4 (cfg : Cfg) (f : ℕ → ℕ → ℕ → ℚ) (a : List (List (List (List ℚ)))) :
    Option (List (List (List ℕ)) × List (List (List ℚ)) × ℕ × ℕ × ℕ × ℕ) :=
  if capTk cfg (viewTotalk a) = 0 ∧ capRk cfg (viewTotalk a) = 0 then none
  else some
    ((rows3 (capTk cfg (viewTotalk a)) (capRk cfg (viewTotalk a)) f (rearrange4 a)).map
        (fun s => s.map Prod.fst),
      (rows3 (capTk cfg (viewTotalk a)) (capRk cfg (viewTotalk a)) f (rearrange4 a)).map
        (fun s => s.map Prod.snd),
      a.length, (a.headD []).length, ((a.headD []).headD []).length,
      (((a.headD []).headD []).headD []).length)

/-- A zero-filled row, torch.zeros([c]). -/
def zerosRow (c : ℕ) : List ℚ := List.replicate c 0

/-- torch.zeros([r, c]). -/
def zeros2 (r c : ℕ) : List (List ℚ) := List.replicate r (zerosRow c)

/-- torch.zeros([O, I, H, W]). -/
def zeros4 (O I H W : ℕ) : List (List (List (List ℚ))) :=
  List.replicate O (List.replicate I (List.replicate H (List.replicate W (0 : ℚ))))

/-- x.scatter_add_(dim=-1, index=idx, src=val) on a 2D tensor: each row of
the base accumulates its own index/value rows (rows of the base beyond the
index tensor are untouched). -/
def scatterAdd2 (base : List (List ℚ)) (idx : List (List ℕ)) (val : List (List ℚ)) :
    List (List ℚ) :=
  (List.range base.length).map
    (fun i => scatterAddRow (base.getD i []) (idx.getD i []) (val.getD i []))

/-- x.scatter_add_(dim=-1, index=idx, src=val) on a 3D tensor. -/
def scatterAdd3 (base : List (List (List ℚ))) (idx : List (List (List ℕ)))
    (val : List (List (List ℚ))) : List (List (List ℚ)) :=
  (List.range base.length).map
    (fun y => scatterAdd2 (base.getD y []) (idx.getD y []) (val.getD y []))

/-- The shape constraints torch.scatter_add_ enforces on a batch of index and
value rows scattering into rows of width cols: the index batch is no larger
than the source batch, each index row no longer than its source row, and
every index in range.  A violation raises at runtime. -/
def okRows (cols : ℕ) (idx : List (List ℕ)) (val : List (List ℚ)) : Bool :=
  decide (idx.length ≤ val.length) &&
    (idx.zip val).all
      (fun p => decide (p.1.length ≤ p.2.length) && p.1.all (fun i => decide (i < cols)))

/-- CompressDCT.decompress for a rank-1 shape [n]: zero tensor, then
scatter_add_; any index ≥ n makes torch raise (none). -/
def decompress1 (idx : List ℕ) (val : List ℚ) (n : ℕ) : Option (List ℚ) :=
  if decide (idx.length ≤ val.length) && idx.all (fun i => decide (i < n)) then
    some (scatterAddRow (zerosRow n) idx val)
  else none

/-- CompressDCT.decompress for a rank-2 shape [r, c]. -/
def decompress2 (idx : List (List ℕ)) (val : List (List ℚ)) (r c : ℕ) :
    Option (List (List ℚ)) :=
  if decide (idx.length ≤ r) && okRows c idx val then
    some (scatterAdd2 (zeros2 r c) idx val)
  else none

/-- CompressDCT.decompress for a rank-4 shape [O, I, H, W]: zeros, rearrange
to the 3D view, scatter_add_ along the last axis, rearrange back. -/
def decompress4 (idx : List (List (List ℕ))) (val : List (List (List ℚ)))
    (O I H W : ℕ) : Option (List (List (List (List ℚ)))) :=
  if decide (idx.length ≤ O) && decide (idx.length ≤ val.length) &&
      (idx.zip val).all (fun p => decide (p.1.length ≤ H) && okRows (I * W) p.1 p.2) then
    some (invRearrange4 W (scatterAdd3 (rearrange4 (zeros4 O I H W)) idx val))
  else none

/-- Dense tensors of the ranks the codec supports (rank ≤ 2 used as-is,
rank 4 rearranged; the 1D case is a single row). -/
inductive Tensor where
  | t1 (v : List ℚ)
  | t2 (m : List (List ℚ))
  | t4 (a : List (List (List (List ℚ))))
  deriving DecidableEq

/-- The (all_idx, val, xshape) triple returned by compress, tagged by the
rank of the original tensor (the rank of xshape drives decompress). -/
inductive Compressed where
  | c1 (idx : List ℕ) (val : List ℚ) (n : ℕ)
  | c2 (idx : List (List ℕ)) (val : List (List ℚ)) (r c : ℕ)
  | c4 (idx : List (List (List ℕ))) (val : List (List (List ℚ))) (O I H W : ℕ)
  deriving DecidableEq

/-- CompressDCT.compress, dispatching on the tensor's rank as the source
dispatches on len(x.shape); f generates the torch.rand_like values. -/
def compressT (cfg : Cfg) (f : ℕ → ℕ → ℕ → ℚ) : Tensor → Option Compressed
  | .t1 v => (compress1 cfg (f 0 0) v).map (fun p => .c1 p.1 p.2.1 p.2.2)
  | .t2 m => (compress2 cfg (f 0) m).map (fun p => .c2 p.1 p.2.1 p.2.2.1 p.2.2.2)
  | .t4 a => (compress4 cfg f a).map
      (fun p => .c4 p.1 p.2.1 p.2.2.1 p.2.2.2.1 p.2.2.2.2.1 p.2.2.2.2.2)

/-- CompressDCT.decompress, dispatching on the rank of the stored shape. -/
def decompressT : Compressed → Option Tensor
  | .c1 i v n => (decompress1 i v n).map Tensor.t1
  | .c2 i v r c => (decompress2 i v r c).map Tensor.t2
  | .c4 i v O I H W => (decompress4 i v O I H W).map Tensor.t4

/-- Size of the selectable last logical axis, x.shape[-1] of the (possibly
rearranged) view the codec compresses along. -/
def totalkOf : Tensor → ℕ
  | .t1 v => v.length
  | .t2 m => (m.headD []).length
  | .t4 a => viewTotalk a

/-- x.shape, with the sizes read off the nested lists. -/
def shapeOf : Tensor → List ℕ
  | .t1 v => [v.length]
  | .t2 m => [m.length, (m.headD []).length]
  | .t4 a => [a.length, (a.headD []).length, ((a.headD []).headD []).length,
      (((a.headD []).headD []).headD []).length]

/-- Rectangular 2D data with the given dimensions. -/
def rect2 {α : Type _} (r c : ℕ) (m : List (List α)) : Prop :=
  m.length = r ∧ ∀ row ∈ m, row.length = c

/-- Rectangular 3D data with the given dimensions. -/
def rect3 {α : Type _} (a b c : ℕ) (t : List (List (List α))) : Prop :=
  t.length = a ∧ ∀ s ∈ t, rect2 b c s

/-- Rectangular 4D data with the given dimensions. -/
def rect4 {α : Type _} (O I H W : ℕ) (a : List (List (List (List α)))) : Prop :=
  a.length = O ∧ ∀ s ∈ a, rect3 I H W s

/-- A well-formed tensor: rectangular with positive dimensions (the data
model requires shapes to be sequences of positive integers). -/
def wfT : Tensor → Prop
  | .t1 v => 0 < v.length
  | .t2 m => 0 < m.length ∧ 0 < (m.headD []).length
      ∧ rect2 m.length (m.headD []).length m
  | .t4 a => 0 < a.length ∧ 0 < (a.headD []).length
      ∧ 0 < ((a.headD []).headD []).length
      ∧ 0 < (((a.headD []).headD []).headD []).length
      ∧ rect4 a.length (a.headD []).length ((a.headD []).headD []).length
          ((((a.headD []).headD []).headD [])).length a

/-- Elementwise sum of two same-shape tensors (the reference value for merge
additivity); on mismatched ranks, never reached below, it returns the first
argument. -/
def addT : Tensor → Tensor → Tensor
  | .t1 a, .t1 b => .t1 (List.zipWith (· + ·) a b)
  | .t2 a, .t2 b => .t2 (List.zipWith (fun r s => List.zipWith (· + ·) r s) a b)
  | .t4 a, .t4 b => .t4 (List.zipWith
      (fun s1 s2 => List.zipWith
        (fun p1 p2 => List.zipWith (fun r1 r2 => List.zipWith (· + ·) r1 r2) p1 p2)
        s1 s2) a b)
  | t, _ => t

/-- torch.concatenate(ts, dim=-1) for 1D tensors (an empty list raises). -/
def concatLast1 {α : Type _} : List (List α) → Option (List α)
  | [] => none
  | t :: rest => some ((t :: rest).flatten)

/-- torch.concatenate(ts, dim=-1) for 2D tensors: all leading dimensions must
agree, otherwise torch raises. -/
def concatLast2 {α : Type _} : List (List (List α)) → Option (List (List α))
  | [] => none
  | t :: rest =>
    if rest.all (fun u => decide (u.length = t.length)) then
      some (rest.foldl (fun acc u => List.zipWith (· ++ ·) acc u) t)
    else none

/-- torch.concatenate(ts, dim=-1) for 3D tensors. -/
def concatLast3 {α : Type _} :
    List (List (List (List α))) → Option (List (List (List α)))
  | [] => none
  | t :: rest =>
    if rest.all (fun u => decide (u.length = t.length)
        && (u.zip t).all (fun p => decide (p.1.length = p.2.length))) then
      some (rest.foldl
        (fun acc u => List.zipWith (fun x y => List.zipWith (· ++ ·) x y) acc u) t)
    else none

/-- Option-valued traversal: models a python loop in which any failure aborts
the whole call. -/
def optMapM {α β : Type _} (f : α → Option β) : List α → Option (List β)
  | [] => some []
  | a :: l => (f a).bind (fun b => (optMapM f l).map (fun bs => b :: bs))

/-- CompressDCT.batch_decompress: concatenate all shards' index and value
tensors along dim=-1 and decompress the result using xshapes[0], the FIRST
shard's shape; the shapes stored in the other shards are never consulted.
Shards of differing ranks cannot be concatenated (torch raises). -/
def batchDecompressT : List Compressed → Option Tensor
  | [] => none
  | .c1 i v n :: rest =>
    (optMapM (fun c => match c with | .c1 i2 v2 _ => some (i2, v2) | _ => none) rest).bind
      (fun tl => (concatLast1 (i :: tl.map Prod.fst)).bind
        (fun ai => (concatLast1 (v :: tl.map Prod.snd)).bind
          (fun av => (decompress1 ai av n).map Tensor.t1)))
  | .c2 i v r c :: rest =>
    (optMapM (fun cc => match cc with | .c2 i2 v2 _ _ => some (i2, v2) | _ => none) rest).bind
      (fun tl => (concatLast2 (i :: tl.map Prod.fst)).bind
        (fun ai => (concatLast2 (v :: tl.map Prod.snd)).bind
          (fun av => (decompress2 ai av r c).map Tensor.t2)))
  | .c4 i v O I H W :: rest =>
    (optMapM (fun cc => match cc with | .c4 i2 v2 _ _ _ _ => some (i2, v2) | _ => none) rest).bind
      (fun tl => (concatLast3 (i :: tl.map Prod.fst)).bind
        (fun ai => (concatLast3 (v :: tl.map Prod.snd)).bind
          (fun av => (decompress4 ai av O I H W).map Tensor.t4)))

/-- Erases the stored shape of a shard, keeping its index/value payload:
two batches whose tails agree under dropShape differ only in the shapes
batch_decompress ignores. -/
def dropShape : Compressed → Compressed
  | .c1 i v _ => .c1 i v 0
  | .c2 i v _ _ => .c2 i v 0 0
  | .c4 i v _ _ _ _ => .c4 i v 0 0 0 0

/-- The rows of indices of a compressed delta, one list per row of the
(possibly rearranged) 2D view. -/
def idxRows : Compressed → List (List ℕ)
  | .c1 i _ _ => [i]
  | .c2 i _ _ _ => i
  | .c4 i _ _ _ _ _ => i.flatten

/-- The rows of values of a compressed delta. -/
def valRows : Compressed → List (List ℚ)
  | .c1 _ v _ => [v]
  | .c2 _ v _ _ => v
  | .c4 _ v _ _ _ _ => v.flatten

/-- The column count of each row of the view a compressed delta scatters
into. -/
def colCount : Compressed → ℕ
  | .c1 _ _ n => n
  | .c2 _ _ _ c => c
  | .c4 _ _ _ I _ W => I * W

/-- Some stored index falls outside the addressable columns. -/
def hasOOB (c : Compressed) : Prop :=
  ∃ row ∈ idxRows c, ∃ i ∈ row, colCount c ≤ i

instance hasOOB_decidable (c : Compressed) : Decidable (hasOOB c) := by
  unfold hasOOB; infer_instance

/-- The rows the per-row top-k/random-k selection of compress actually
operates on: the tensor's rows for rank ≤ 2, all rows of the rearranged 3D
view for rank 4. -/
def viewRows : Tensor → List (List ℚ)
  | .t1 v => [v]
  | .t2 m => m
  | .t4 a => (rearrange4 a).flatten

/-- Modelled from the spec (section 4.1 shape normalization): the claimed 2D
view of a rank-4 tensor [O, I, H, W], one row per out-channel holding the
row-major flattening of the input-channel and both kernel axes, for
comparison with the view the code actually builds. -/
def specView4 (a : List (List (List (List ℚ)))) : List (List ℚ) :=
  a.map (fun ay => (ay.map (fun ah => ah.flatten)).flatten)

/-- The per-tensor index payload of a wire entry (nested JSON arrays). -/
inductive IdxData where
  | i1 (l : List ℕ)
  | i2 (l : List (List ℕ))
  | i4 (l : List (List (List ℕ)))
  deriving DecidableEq

/-- The per-tensor value payload of a wire entry. -/
inductive ValData where
  | v1 (l : List ℚ)
  | v2 (l : List (List ℚ))
  | v4 (l : List (List (List ℚ)))
  deriving DecidableEq

/-- c.decompress(torch.Tensor(idx), torch.Tensor(val), shape) for one wire
entry: the rank of the shape list selects the branch; a rank mismatch between
the index/value tensors and the shape makes torch raise (none). -/
def decompressDyn : IdxData → ValData → List ℕ → Option Tensor
  | .i1 i, .v1 v, [n] => (decompress1 i v n).map Tensor.t1
  | .i2 i, .v2 v, [r, c] => (decompress2 i v r c).map Tensor.t2
  | .i4 i, .v4 v, [O, I, H, W] => (decompress4 i v O I H W).map Tensor.t4
  | _, _, _ => none

/-- One parsed JSON payload: the parallel per-tensor arrays all_idx, val and
shape. -/
structure WirePayload where
  all_idx : List IdxData
  val : List ValData
  shape : List (List ℕ)
  deriving DecidableEq

/-- A parsed stdin JSON document: either a payload object or an array of
payload objects. -/
inductive DistroInput where
  | obj (p : WirePayload)
  | arr (l : List WirePayload)
  deriving DecidableEq

/-- The field validation and per-tensor decompression loop of main: after
checking len(val) == len(all_idx) == len(shape), each tensor entry is
decompressed independently, in order. -/
def processPayload (p : WirePayload) : Option (List Tensor) :=
  if p.val.length = p.all_idx.length ∧ p.all_idx.length = p.shape.length then
    optMapM (fun q => decompressDyn q.1 q.2.1 q.2.2)
      (p.all_idx.zip (p.val.zip p.shape))
  else none

/-- The batch-decompression pipeline of main on a parsed input: a
single-element wrapping array is unwrapped before anything else, any other
array length is rejected. -/
def runDistro : DistroInput → Option (List Tensor)
  | .obj p => processPayload p
  | .arr [p] => processPayload p
  | .arr _ => none

theorem optMapM_congr_of_dropShape {β : Type _} (f : Compressed → Option β) :
    ∀ (cs cs' : List Compressed), cs.map dropShape = cs'.map dropShape →
      (∀ c, f c = f (dropShape c)) → optMapM f cs = optMapM f cs' := by
  intro cs
  induction cs with
  | nil =>
    intro cs' h hf
    cases cs' with
    | nil => rfl
    | cons d ds => simp at h
  | cons c cs ih =>
    intro cs' h hf
    cases cs' with
    | nil => simp at h
    | cons d ds =>
      simp only [List.map_cons, List.cons.injEq] at h
      have hcd : f c = f d := by rw [hf c, hf d, h.1]
      rw [optMapM, optMapM, hcd, ih ds h.2 hf]

/-- Claim C9: the pipeline gives the same output on a payload and on that
payload wrapped in a single-element array — the wrapper is unwrapped
transparently before field validation and decompression. -/
theorem runDistro_unwraps_singleton (p : WirePayload) :
    runDistro (DistroInput.arr [p]) = runDistro (DistroInput.obj p) := rfl

/-- Claim C3 (code bug): CompressDCT(0, 0) stores topk = 0 and randk = 0 —
the coercion line in __init__ assigns to a local variable, never to
self.topk — and the subsequent compress call fails instead of selecting one
index per row. -/
theorem compress_zero_zero_fails :
    compressT (initDCT 0 0) (fun _ _ _ => 0) (Tensor.t2 [[1]]) = none := by
  decide

/-- Claim C4 counterexample: for the rank-4 tensor [[[[1,2],[3,4]]]] of shape
[1,1,2,2] the code's normalization produces the selectable rows
[[1,2],[3,4]] (two rows of length I*W = 2), not the single length-4 row of
the 2D view [O, I*H*W] the claim describes. -/
theorem rank4_view_not_spec_2d_view :
    viewRows (Tensor.t4 [[[[1, 2], [3, 4]]]]) ≠ specView4 [[[[1, 2], [3, 4]]]] := by
  decide

/-- Claim C10: the output of batch_decompress is determined by the first
shard and the first shard's stored shape alone — replacing the shapes
recorded in the remaining shards (dropShape-equal tails) cannot change the
result, so no shape comparison, and in particular no ShapeMismatch error, is
performed on them. -/
theorem batchDecompress_ignores_tail_shapes (c : Compressed) (cs cs' : List Compressed)
    (h : cs.map dropShape = cs'.map dropShape) :
    batchDecompressT (c :: cs) = batchDecompressT (c :: cs') := by
  cases c with
  | c1 i v n =>
    simp only [batchDecompressT]
    rw [optMapM_congr_of_dropShape _ cs cs' h (fun c => by cases c <;> rfl)]
  | c2 i v r cc =>
    simp only [batchDecompressT]
    rw [optMapM_congr_of_dropShape _ cs cs' h (fun c => by cases c <;> rfl)]
  | c4 i v O I H W =>
    simp only [batchDecompressT]
    rw [optMapM_congr_of_dropShape _ cs cs' h (fun c => by cases c <;> rfl)]

/-- Witness for C10: two concrete two-shard batches whose second shards agree
except for their recorded shapes ((9,9) against (1,2)) decompress
identically, and successfully, under the first shard's shape (1,2). -/
theorem batchDecompress_ignores_tail_shapes_witness :
    batchDecompressT [Compressed.c2 [[0]] [[5]] 1 2, Compressed.c2 [[1]] [[7]] 9 9]
        = batchDecompressT [Compressed.c2 [[0]] [[5]] 1 2, Compressed.c2 [[1]] [[7]] 1 2]
      ∧ batchDecompressT [Compressed.c2 [[0]] [[5]] 1 2, Compressed.c2 [[1]] [[7]] 9 9]
        = some (Tensor.t2 [[5, 7]]) :=
  ⟨batchDecompress_ignores_tail_shapes (Compressed.c2 [[0]] [[5]] 1 2)
      [Compressed.c2 [[1]] [[7]] 9 9] [Compressed.c2 [[1]] [[7]] 1 2] (by decide),
    by with_unfolding_all decide⟩

theorem headD_pos {α : Type _} (l : List α) (d : α) (h : 0 < l.length) :
    l.headD d = l.getD 0 d := by
  cases l with
  | nil => simp at h
  | cons a t => rfl

theorem getD_mem {α : Type _} {l : List α} {i : ℕ} (d : α) (h : i < l.length) :
    l.getD i d ∈ l := by
  rw [List.getD_eq_getElem l d h]
  exact List.getElem_mem h

theorem bool_and_true {a b : Bool} (h : (a && b) = true) : a = true ∧ b = true := by
  simpa using h

theorem okRows_all_lt {cols : ℕ} {idx : List (List ℕ)} {val : List (List ℚ)}
    (h : okRows cols idx val = true) :
    idx.length ≤ val.length ∧ ∀ row ∈ idx, ∀ i ∈ row, i < cols := by
  have h1 := bool_and_true h
  have hlen : idx.length ≤ val.length := by simpa using h1.1
  refine ⟨hlen, ?_⟩
  intro row hrow i hi
  rcases List.mem_iff_getElem.mp hrow with ⟨k, hk, hrowk⟩
  have hkv : k < val.length := by omega
  have hkz : k < (idx.zip val).length := by
    rw [List.length_zip]; omega
  have hpair : (row, val.getD k []) ∈ idx.zip val := by
    rw [List.mem_iff_getElem]
    refine ⟨k, hkz, ?_⟩
    rw [List.getElem_zip, hrowk, List.getD_eq_getElem val [] hkv]
  have h2 := List.all_eq_true.mp h1.2 _ hpair
  have h3 := (bool_and_true h2).2
  have h4 := List.all_eq_true.mp h3 i hi
  simpa using h4

theorem decompress1_oob {i : List ℕ} {v : List ℚ} {n j : ℕ} (hj : j ∈ i) (hle : n ≤ j) :
    decompress1 i v n = none := by
  unfold decompress1
  split
  · rename_i hc
    exfalso
    have h2 := (bool_and_true hc).2
    have h3 := List.all_eq_true.mp h2 j hj
    simp at h3
    omega
  · rfl

theorem decompress2_oob {idx : List (List ℕ)} {val : List (List ℚ)} {r c : ℕ}
    {row : List ℕ} {j : ℕ} (hrow : row ∈ idx) (hj : j ∈ row) (hle : c ≤ j) :
    decompress2 idx val r c = none := by
  unfold decompress2
  split
  · rename_i hc
    exfalso
    have hok := (bool_and_true hc).2
    have := (okRows_all_lt hok).2 row hrow j hj
    omega
  · rfl

theorem decompress4_oob {idx : List (List (List ℕ))} {val : List (List (List ℚ))}
    {O I H W : ℕ} {row : List ℕ} {j : ℕ} (hrow : row ∈ idx.flatten) (hj : j ∈ row)
    (hle : I * W ≤ j) : decompress4 idx val O I H W = none := by
  unfold decompress4
  split
  · rename_i hc
    exfalso
    rcases List.mem_flatten.mp hrow with ⟨slice, hs, hrs⟩
    have h1 := bool_and_true hc
    have hlen : idx.length ≤ val.length := by
      simpa using (bool_and_true h1.1).2
    rcases List.mem_iff_getElem.mp hs with ⟨k, hk, hsk⟩
    have hkv : k < val.length := by omega
    have hkz : k < (idx.zip val).length := by
      rw [List.length_zip]; omega
    have hpair : (slice, val.getD k []) ∈ idx.zip val := by
      rw [List.mem_iff_getElem]
      refine ⟨k, hkz, ?_⟩
      rw [List.getElem_zip, hsk, List.getD_eq_getElem val [] hkv]
    have h2 := List.all_eq_true.mp h1.2 _ hpair
    have hok := (bool_and_true h2).2
    have := (okRows_all_lt hok).2 row hrs j hj
    omega
  · rfl

/-- Claim C8: a compressed delta containing an index at or beyond its row's
column count fails decompression outright — the index is surfaced as an
error, never clamped or ignored. -/
theorem decompress_oob_fails (c : Compressed) (h : hasOOB c) : decompressT c = none := by
  obtain ⟨row, hrow, j, hj, hle⟩ := h
  cases c with
  | c1 i v n =>
    simp only [idxRows, colCount, List.mem_singleton] at hrow hle
    subst hrow
    simp [decompressT, decompress1_oob hj hle]
  | c2 i v r cc =>
    simp only [idxRows, colCount] at hrow hle
    simp [decompressT, decompress2_oob hrow hj hle]
  | c4 i v O I H W =>
    simp only [idxRows, colCount] at hrow hle
    simp [decompressT, decompress4_oob hrow hj hle]

/-- Witness for C8: index 4 supplied for a row with 4 columns (valid range
[0,3]) makes decompression fail. -/
theorem decompress_oob_fails_witness :
    hasOOB (Compressed.c2 [[4]] [[1]] 1 4)
      ∧ decompressT (Compressed.c2 [[4]] [[1]] 1 4) = none :=
  ⟨by decide, decompress_oob_fails (Compressed.c2 [[4]] [[1]] 1 4) (by decide)⟩

/-- Claim C7: decompression accumulates rather than overwrites or errors:
any in-range index/value lists (repeated indices included) are accepted, and
each output entry is the sum of all values whose paired index targets it,
added into a zero-initialised tensor. -/
theorem decompress_accumulates (idx : List (List ℕ)) (val : List (List ℚ)) (r c : ℕ)
    (hlen : idx.length ≤ r) (hok : okRows c idx val = true) :
    decompress2 idx val r c = some (scatterAdd2 (zeros2 r c) idx val)
      ∧ ∀ i < r, ∀ j < c,
        ((scatterAdd2 (zeros2 r c) idx val).getD i []).getD j 0
          = ((((idx.getD i []).zip (val.getD i [])).filter
              (fun p => p.1 = j)).map Prod.snd).sum := by
  constructor
  · unfold decompress2
    rw [if_pos]
    rw [Bool.and_eq_true]
    exact ⟨by simpa using hlen, hok⟩
  · intro i hi j hj
    have hl2 : (zeros2 r c).length = r := by simp [zeros2]
    have hi2 : i < ((List.range (zeros2 r c).length).map
        (fun k => scatterAddRow ((zeros2 r c).getD k []) (idx.getD k []) (val.getD k []))).length := by
      simpa [hl2] using hi
    have hmap : (scatterAdd2 (zeros2 r c) idx val).getD i []
        = scatterAddRow ((zeros2 r c).getD i []) (idx.getD i []) (val.getD i []) := by
      unfold scatterAdd2
      rw [List.getD_eq_getElem _ [] hi2, List.getElem_map, List.getElem_range]
    have hz : (zeros2 r c).getD i [] = zerosRow c := by
      have hi3 : i < (List.replicate r (zerosRow c)).length := by simpa using hi
      calc (zeros2 r c).getD i [] = (List.replicate r (zerosRow c)).getD i [] := rfl
        _ = (List.replicate r (zerosRow c))[i] := List.getD_eq_getElem _ _ hi3
        _ = zerosRow c := List.getElem_replicate _ hi3
    have hjz : j < (zerosRow c).length := by simpa [zerosRow] using hj
    have hbound : ∀ p ∈ (idx.getD i []).zip (val.getD i []), p.1 < (zerosRow c).length := by
      intro p hp
      have hc : p.1 < c := by
        by_cases hii : i < idx.length
        · have hrowmem : idx.getD i [] ∈ idx := getD_mem [] hii
          exact (okRows_all_lt hok).2 _ hrowmem p.1 (List.of_mem_zip hp).1
        · rw [List.getD_eq_default _ _ (by omega)] at hp
          simp at hp
      simpa [zerosRow] using hc
    have hjz4 : j < (List.replicate c (0 : ℚ)).length := by simpa using hj
    have hzero : (zerosRow c).getD j 0 = 0 := by
      calc (zerosRow c).getD j 0 = (List.replicate c (0 : ℚ)).getD j 0 := rfl
        _ = (List.replicate c (0 : ℚ))[j] := List.getD_eq_getElem _ _ hjz4
        _ = 0 := List.getElem_replicate _ hjz4
    rw [hmap, hz, scatterAddRow_getD _ _ _ hbound hjz, hzero, zero_add]

/-- Witness for C7: the repeated index 1 in a 1-by-4 delta is accepted and
columns accumulate; concretely the values 2 and 3 both target column 1 and
sum there to 5. -/
theorem decompress_accumulates_witness :
    decompress2 [[1, 1]] [[2, 3]] 1 4 = some (scatterAdd2 (zeros2 1 4) [[1, 1]] [[2, 3]])
      ∧ ((scatterAdd2 (zeros2 1 4) [[1, 1]] [[2, 3]]).getD 0 []).getD 1 0
          = ((((([[1, 1]] : List (List ℕ)).getD 0 []).zip
              (([[2, 3]] : List (List ℚ)).getD 0 [])).filter
              (fun p => p.1 = 1)).map Prod.snd).sum
      ∧ ((scatterAdd2 (zeros2 1 4) [[1, 1]] [[2, 3]]).getD 0 []).getD 1 0 = 5 :=
  ⟨(decompress_accumulates [[1, 1]] [[2, 3]] 1 4 (by decide) (by decide)).1,
    (decompress_accumulates [[1, 1]] [[2, 3]] 1 4 (by decide) (by decide)).2
      0 (by decide) 1 (by decide),
    by with_unfolding_all decide⟩

theorem randLike2_length (g : ℕ → ℕ → ℚ) (m : List (List ℚ)) :
    (randLike2 g m).length = m.length := by
  simp [randLike2]

theorem randLike2_mem_length {g : ℕ → ℕ → ℚ} {m : List (List ℚ)} {c : ℕ}
    (hm : ∀ row ∈ m, row.length = c) :
    ∀ rr ∈ randLike2 g m, rr.length = c := by
  intro rr hrr
  unfold randLike2 at hrr
  rcases List.mem_map.mp hrr with ⟨k, hk, hkr⟩
  have hkm : k < m.length := List.mem_range.mp hk
  rw [← hkr, List.length_map, List.length_range]
  exact hm _ (getD_mem [] hkm)

theorem randLike3_length (f : ℕ → ℕ → ℕ → ℚ) (v : List (List (List ℚ))) :
    (randLike3 f v).length = v.length := by
  simp [randLike3]

theorem randLike3_mem_length {f : ℕ → ℕ → ℕ → ℚ} {v : List (List (List ℚ))} {c : ℕ}
    (hv : ∀ s ∈ v, ∀ row ∈ s, row.length = c) :
    ∀ s2 ∈ randLike3 f v, ∀ rr ∈ s2, rr.length = c := by
  intro s2 hs2 rr hrr
  unfold randLike3 at hs2
  rcases List.mem_map.mp hs2 with ⟨y, hy, hys⟩
  have hyv : y < v.length := List.mem_range.mp hy
  rw [← hys] at hrr
  exact randLike2_mem_length (fun row hrow => hv _ (getD_mem [] hyv) row hrow) rr hrr

theorem topIdxRow_length {tk : ℕ} {r : List ℚ} (htk : tk ≤ r.length) :
    (topIdxRow tk r).length = tk := by
  unfold topIdxRow
  rw [topkIndices_length]
  simp only [List.length_map]
  omega

theorem topIdxRow_lt {tk : ℕ} {r : List ℚ} :
    ∀ i ∈ topIdxRow tk r, i < r.length := by
  intro i hi
  have := topkIndices_mem hi
  simpa using this

theorem randIdxRow_length {rk : ℕ} {ts : List ℕ} {rr : List ℚ} (hrk : rk ≤ rr.length) :
    (randIdxRow rk ts rr).length = rk := by
  unfold randIdxRow
  rw [topkIndices_length, scatterValue_length]
  omega

theorem randIdxRow_lt {rk : ℕ} {ts : List ℕ} {rr : List ℚ} :
    ∀ i ∈ randIdxRow rk ts rr, i < rr.length := by
  intro i hi
  have := topkIndices_mem hi
  rwa [scatterValue_length] at this

theorem allIdxRow_length {tk rk : ℕ} {rr r : List ℚ}
    (htk : tk ≤ r.length) (hrk : rk ≤ r.length - tk) (hrr : rr.length = r.length) :
    (allIdxRow tk rk rr r).length = tk + rk := by
  unfold allIdxRow
  split_ifs with h1 h2
  · rw [List.length_append, topIdxRow_length htk, randIdxRow_length (by omega)]
  · rw [topIdxRow_length htk]
    omega
  · rw [randIdxRow_length (by omega)]
    omega

theorem allIdxRow_lt {tk rk : ℕ} {rr r : List ℚ} (hrr : rr.length = r.length) :
    ∀ i ∈ allIdxRow tk rk rr r, i < r.length := by
  intro i hi
  unfold allIdxRow at hi
  split_ifs at hi with h1 h2
  · rcases List.mem_append.mp hi with h | h
    · exact topIdxRow_lt i h
    · have := randIdxRow_lt i h
      omega
  · exact topIdxRow_lt i hi
  · have := randIdxRow_lt i hi
    omega

theorem compressRow_lengths (cfg : Cfg) (totalk : ℕ) (rrow xrow : List ℚ)
    (hx : xrow.length = totalk) (hr : rrow.length = totalk) :
    (compressRow (capTk cfg totalk) (capRk cfg totalk) rrow xrow).1.length
        = capTk cfg totalk + capRk cfg totalk
      ∧ (compressRow (capTk cfg totalk) (capRk cfg totalk) rrow xrow).2.length
        = (compressRow (capTk cfg totalk) (capRk cfg totalk) rrow xrow).1.length := by
  subst hx
  refine ⟨?_, gatherRow_length _ _⟩
  exact allIdxRow_length (by simp [capTk]) (by simp [capRk]) (by omega)

theorem rearrangeSlice_rect {ay : List (List (List ℚ))} {I H W : ℕ}
    (h : rect3 I H W ay) (hI : 0 < I) :
    rect2 H (I * W) (rearrangeSlice ay) := by
  obtain ⟨hlen, hslices⟩ := h
  have hhead : ay.headD [] ∈ ay := by
    rw [headD_pos ay [] (by omega)]
    exact getD_mem [] (by omega)
  have hheadlen : (ay.headD []).length = H := (hslices _ hhead).1
  constructor
  · unfold rearrangeSlice
    rw [List.length_map, List.length_range, hheadlen]
  · intro row hrow
    unfold rearrangeSlice at hrow
    rcases List.mem_map.mp hrow with ⟨x, hx, hxr⟩
    rw [hheadlen] at hx
    have hxH : x < H := List.mem_range.mp hx
    have hW : ∀ l ∈ ay.map (fun ah => ah.getD x []), l.length = W := by
      intro l hl
      rcases List.mem_map.mp hl with ⟨ah, hah, hahl⟩
      rw [← hahl]
      have h2 := hslices ah hah
      have hxlt : x < ah.length := by rw [h2.1]; exact hxH
      exact h2.2 _ (getD_mem [] hxlt)
    rw [← hxr, flatten_length_uniform hW, List.length_map, hlen]

theorem rearrange4_rect {a : List (List (List (List ℚ)))} {O I H W : ℕ}
    (h : rect4 O I H W a) (hI : 0 < I) :
    rect3 O H (I * W) (rearrange4 a) := by
  obtain ⟨hlen, hsl⟩ := h
  constructor
  · simp [rearrange4, hlen]
  · intro s hs
    rcases List.mem_map.mp hs with ⟨ay, hay, hays⟩
    rw [← hays]
    exact rearrangeSlice_rect (hsl ay hay) hI

theorem viewTotalk_eq {a : List (List (List (List ℚ)))} {O I H W : ℕ}
    (h : rect4 O I H W a) (hO : 0 < O) (hI : 0 < I) (hH : 0 < H) :
    viewTotalk a = I * W := by
  have hv := rearrange4_rect h hI
  have hlen1 : 0 < (rearrange4 a).length := by rw [hv.1]; omega
  have h1 : (rearrange4 a).headD [] ∈ rearrange4 a := by
    rw [headD_pos (rearrange4 a) [] hlen1]
    exact getD_mem [] hlen1
  have h2 := hv.2 _ h1
  have hlen2 : 0 < ((rearrange4 a).headD []).length := by rw [h2.1]; omega
  have h3 : ((rearrange4 a).headD []).headD [] ∈ (rearrange4 a).headD [] := by
    rw [headD_pos ((rearrange4 a).headD []) [] hlen2]
    exact getD_mem [] hlen2
  exact h2.2 _ h3

theorem compressT_t1 {cfg : Cfg} {f : ℕ → ℕ → ℕ → ℚ} {v : List ℚ} {out : Compressed}
    (hc : compressT cfg f (Tensor.t1 v) = some out) :
    ¬(capTk cfg v.length = 0 ∧ capRk cfg v.length = 0)
      ∧ out = Compressed.c1
          (compressRow (capTk cfg v.length) (capRk cfg v.length)
            ((List.range v.length).map (f 0 0)) v).1
          (compressRow (capTk cfg v.length) (capRk cfg v.length)
            ((List.range v.length).map (f 0 0)) v).2
          v.length := by
  by_cases hcond : capTk cfg v.length = 0 ∧ capRk cfg v.length = 0
  · simp only [compressT, compress1, if_pos hcond, Option.map_none'] at hc
    exact absurd hc (by simp)
  · simp only [compressT, compress1, if_neg hcond, Option.map_some'] at hc
    exact ⟨hcond, by rw [← Option.some_inj.mp hc]⟩

theorem compressT_t2 {cfg : Cfg} {f : ℕ → ℕ → ℕ → ℚ} {m : List (List ℚ)}
    {out : Compressed} (hc : compressT cfg f (Tensor.t2 m) = some out) :
    ¬(capTk cfg (m.headD []).length = 0 ∧ capRk cfg (m.headD []).length = 0)
      ∧ out = Compressed.c2
          ((rows2 (capTk cfg (m.headD []).length) (capRk cfg (m.headD []).length)
            (f 0) m).map Prod.fst)
          ((rows2 (capTk cfg (m.headD []).length) (capRk cfg (m.headD []).length)
            (f 0) m).map Prod.snd)
          m.length (m.headD []).length := by
  by_cases hcond : capTk cfg (m.headD []).length = 0 ∧ capRk cfg (m.headD []).length = 0
  · simp only [compressT, compress2, if_pos hcond, Option.map_none'] at hc
    exact absurd hc (by simp)
  · simp only [compressT, compress2, if_neg hcond, Option.map_some'] at hc
    exact ⟨hcond, by rw [← Option.some_inj.mp hc]⟩

theorem compressT_t4 {cfg : Cfg} {f : ℕ → ℕ → ℕ → ℚ}
    {a : List (List (List (List ℚ)))} {out : Compressed}
    (hc : compressT cfg f (Tensor.t4 a) = some out) :
    ¬(capTk cfg (viewTotalk a) = 0 ∧ capRk cfg (viewTotalk a) = 0)
      ∧ out = Compressed.c4
          ((rows3 (capTk cfg (viewTotalk a)) (capRk cfg (viewTotalk a)) f
            (rearrange4 a)).map (fun s => s.map Prod.fst))
          ((rows3 (capTk cfg (viewTotalk a)) (capRk cfg (viewTotalk a)) f
            (rearrange4 a)).map (fun s => s.map Prod.snd))
          a.length (a.headD []).length ((a.headD []).headD []).length
          (((a.headD []).headD []).headD []).length := by
  by_cases hcond : capTk cfg (viewTotalk a) = 0 ∧ capRk cfg (viewTotalk a) = 0
  · simp only [compressT, compress4, if_pos hcond, Option.map_none'] at hc
    exact absurd hc (by simp)
  · simp only [compressT, compress4, if_neg hcond, Option.map_some'] at hc
    exact ⟨hcond, by rw [← Option.some_inj.mp hc]⟩

/-- Claim C5: with randk capped at remainingk = totalk - topk, the random-k
index set drawn for a row (from the nonnegative torch.rand values, poisoned
with -1 at the top-k positions) is disjoint from the row's top-k index set:
the poison ranks strictly below every rand value, and the remaining columns
suffice to absorb the whole draw. -/
theorem randIdx_disjoint_topIdx (r rr : List ℚ) (tk rk : ℕ)
    (hlen : rr.length = r.length) (htk : tk ≤ r.length) (hrk : rk ≤ r.length - tk)
    (hnn : ∀ v ∈ rr, 0 ≤ v) :
    (topIdxRow tk r).Disjoint (randIdxRow rk (topIdxRow tk r) rr) := by
  intro p hpT hpR
  have hTlen : (topIdxRow tk r).length = tk := topIdxRow_length htk
  have hTnodup : (topIdxRow tk r).Nodup := topkIndices_nodup _ _
  have hqlen : (scatterValue rr (topIdxRow tk r) (-1)).length = r.length := by
    rw [scatterValue_length, hlen]
  have hqval : ∀ j, j < r.length →
      (scatterValue rr (topIdxRow tk r) (-1)).getD j 0
        = if j ∈ topIdxRow tk r then (-1 : ℚ) else rr.getD j 0 := by
    intro j hj
    exact scatterValue_getD _ _ _ (by omega)
  have hpn : p < r.length := topIdxRow_lt p hpT
  have hA : ∀ j, j < r.length → j ∉ topIdxRow tk r →
      j ∈ randIdxRow rk (topIdxRow tk r) rr := by
    intro j hj hjT
    by_contra hjR
    have hcomp : keyGE (scatterValue rr (topIdxRow tk r) (-1)) p j :=
      topkIndices_compare hpR (by rw [hqlen]; exact hj) hjR
    have hqp : (scatterValue rr (topIdxRow tk r) (-1)).getD p 0 = -1 := by
      rw [hqval p hpn, if_pos hpT]
    have hqj : (scatterValue rr (topIdxRow tk r) (-1)).getD j 0 = rr.getD j 0 := by
      rw [hqval j hj, if_neg hjT]
    have hjnn : (0 : ℚ) ≤ rr.getD j 0 := hnn _ (getD_mem 0 (by omega))
    unfold keyGE at hcomp
    rw [hqp, hqj] at hcomp
    rcases hcomp with hlt | ⟨heq, hle⟩
    · linarith
    · linarith
  classical
  have hRlen : (randIdxRow rk (topIdxRow tk r) rr).length = rk :=
    randIdxRow_length (by omega)
  have hTsub : (topIdxRow tk r).toFinset ⊆ Finset.range r.length := by
    intro x hx
    rw [Finset.mem_range]
    exact topIdxRow_lt x (List.mem_toFinset.mp hx)
  have hTcard : (topIdxRow tk r).toFinset.card = tk := by
    rw [List.toFinset_card_of_nodup hTnodup, hTlen]
  have hNsub : Finset.range r.length \ (topIdxRow tk r).toFinset
      ⊆ (randIdxRow rk (topIdxRow tk r) rr).toFinset := by
    intro j hj
    rw [Finset.mem_sdiff, Finset.mem_range] at hj
    rw [List.mem_toFinset]
    exact hA j hj.1 (fun hc => hj.2 (List.mem_toFinset.mpr hc))
  have hpNot : p ∉ Finset.range r.length \ (topIdxRow tk r).toFinset := by
    rw [Finset.mem_sdiff]
    intro hc
    exact hc.2 (List.mem_toFinset.mpr hpT)
  have hins : insert p (Finset.range r.length \ (topIdxRow tk r).toFinset)
      ⊆ (randIdxRow rk (topIdxRow tk r) rr).toFinset := by
    rw [Finset.insert_subset_iff]
    exact ⟨List.mem_toFinset.mpr hpR, hNsub⟩
  have hcard1 : (insert p (Finset.range r.length \ (topIdxRow tk r).toFinset)).card
      = (r.length - tk) + 1 := by
    rw [Finset.card_insert_of_not_mem hpNot, Finset.card_sdiff hTsub,
      Finset.card_range, hTcard]
  have hcard2 : (randIdxRow rk (topIdxRow tk r) rr).toFinset.card ≤ rk :=
    le_trans (List.toFinset_card_le _) (le_of_eq hRlen)
  have hle := Finset.card_le_card hins
  omega

instance wfT_decidable : (t : Tensor) → Decidable (wfT t)
  | .t1 v => by unfold wfT; infer_instance
  | .t2 m => by unfold wfT rect2; infer_instance
  | .t4 a => by unfold wfT rect4 rect3 rect2; infer_instance

/-- Witness for C5: row [1, 2] with topk = 1, randk = 1 capped at
remainingk = 1, and nonnegative rand values: the random draw avoids the
top-k index. -/
theorem randIdx_disjoint_topIdx_witness :
    (∀ v ∈ ([0, 0] : List ℚ), 0 ≤ v)
      ∧ (topIdxRow 1 [1, 2]).Disjoint (randIdxRow 1 (topIdxRow 1 [1, 2]) [0, 0]) :=
  ⟨by decide,
    randIdx_disjoint_topIdx [1, 2] [0, 0] 1 1 (by decide) (by decide) (by decide)
      (by decide)⟩

/-- Claim C6: every row of a compressed delta produced by compress has index
and value lists of equal length min(topk, totalk) + min(randk, totalk -
min(topk, totalk)), which never exceeds totalk, the row's column count. -/
theorem compress_sparsity (cfg : Cfg) (f : ℕ → ℕ → ℕ → ℚ) (t : Tensor)
    (out : Compressed) (hwf : wfT t) (hc : compressT cfg f t = some out) :
    ∀ p ∈ (idxRows out).zip (valRows out),
      p.1.length = p.2.length
        ∧ p.1.length = min cfg.topk (totalkOf t)
            + min cfg.randk (totalkOf t - min cfg.topk (totalkOf t))
        ∧ p.1.length ≤ totalkOf t := by
  cases t with
  | t1 v =>
    obtain ⟨hcond, hout⟩ := compressT_t1 hc
    subst hout
    intro p hp
    simp only [idxRows, valRows, List.zip_cons_cons, List.zip_nil_right,
      List.mem_singleton] at hp
    subst hp
    have hcr := compressRow_lengths cfg v.length ((List.range v.length).map (f 0 0)) v
      rfl (by simp)
    refine ⟨hcr.2.symm, ?_, ?_⟩
    · exact hcr.1
    · rw [hcr.1]
      have h1 : capTk cfg v.length ≤ v.length := by simp [capTk]
      have h2 : capRk cfg v.length ≤ v.length - capTk cfg v.length := by simp [capRk]
      simp only [totalkOf]
      omega
  | t2 m =>
    obtain ⟨hcond, hout⟩ := compressT_t2 hc
    subst hout
    intro p hp
    simp only [idxRows, valRows] at hp
    rw [List.zip_map'] at hp
    rcases List.mem_map.mp hp with ⟨pr, hpr, hprp⟩
    rcases List.mem_map.mp hpr with ⟨q, hq, hqpr⟩
    obtain ⟨hq1, hq2⟩ := List.of_mem_zip hq
    obtain ⟨hr0, hc0, hrect⟩ := hwf
    have hx : q.1.length = (m.headD []).length := hrect.2 q.1 hq1
    have hr : q.2.length = (m.headD []).length :=
      randLike2_mem_length (fun row hrow => hrect.2 row hrow) q.2 hq2
    have hcr := compressRow_lengths cfg (m.headD []).length q.2 q.1 hx hr
    rw [← hprp, ← hqpr]
    refine ⟨hcr.2.symm, hcr.1, ?_⟩
    rw [hcr.1]
    have h1 : capTk cfg (m.headD []).length ≤ (m.headD []).length := by simp [capTk]
    have h2 : capRk cfg (m.headD []).length
        ≤ (m.headD []).length - capTk cfg (m.headD []).length := by simp [capRk]
    simp only [totalkOf]
    omega
  | t4 a =>
    obtain ⟨hcond, hout⟩ := compressT_t4 hc
    subst hout
    intro p hp
    obtain ⟨hO, hI, hH, hW, hrect⟩ := hwf
    have hvrect : rect3 a.length ((a.headD []).headD []).length
        ((a.headD []).length * (((a.headD []).headD []).headD []).length)
        (rearrange4 a) := rearrange4_rect hrect hI
    have htkv : viewTotalk a
        = (a.headD []).length * (((a.headD []).headD []).headD []).length :=
      viewTotalk_eq hrect hO hI hH
    simp only [idxRows, valRows] at hp
    rw [← List.map_flatten, ← List.map_flatten, List.zip_map'] at hp
    rcases List.mem_map.mp hp with ⟨pr, hpr, hprp⟩
    rcases List.mem_flatten.mp hpr with ⟨slice, hsl, hpsl⟩
    rcases List.mem_map.mp hsl with ⟨s, hsv, hssl⟩
    rw [← hssl] at hpsl
    rcases List.mem_map.mp hpsl with ⟨q, hq, hqpr⟩
    obtain ⟨hs1, hs2⟩ := List.of_mem_zip hsv
    obtain ⟨hq1, hq2⟩ := List.of_mem_zip hq
    have hx : q.1.length = viewTotalk a := by
      rw [htkv]
      exact (hvrect.2 s.1 hs1).2 q.1 hq1
    have hr : q.2.length = viewTotalk a := by
      rw [htkv]
      exact randLike3_mem_length
        (fun sl hsl2 row hrow => (hvrect.2 sl hsl2).2 row hrow) s.2 hs2 q.2 hq2
    have hcr := compressRow_lengths cfg (viewTotalk a) q.2 q.1 hx hr
    rw [← hprp, ← hqpr]
    refine ⟨hcr.2.symm, hcr.1, ?_⟩
    rw [hcr.1]
    have h1 : capTk cfg (viewTotalk a) ≤ viewTotalk a := by simp [capTk]
    have h2 : capRk cfg (viewTotalk a)
        ≤ viewTotalk a - capTk cfg (viewTotalk a) := by simp [capRk]
    simp only [totalkOf]
    omega

/-- Witness for C6: the tensor [[1, -5, 2, 3]] with topk = 1 and randk = 1
compresses to the single row indices [1, 0] and values [-5, 1], of length
min(1,4) + min(1,3) = 2 ≤ 4. -/
theorem compress_sparsity_witness :
    wfT (Tensor.t2 [[1, -5, 2, 3]])
      ∧ ([1, 0] : List ℕ).length = ([-5, 1] : List ℚ).length
      ∧ ([1, 0] : List ℕ).length
          = min 1 (totalkOf (Tensor.t2 [[1, -5, 2, 3]]))
            + min 1 (totalkOf (Tensor.t2 [[1, -5, 2, 3]])
                - min 1 (totalkOf (Tensor.t2 [[1, -5, 2, 3]])))
      ∧ ([1, 0] : List ℕ).length ≤ totalkOf (Tensor.t2 [[1, -5, 2, 3]]) := by
  have h := compress_sparsity ⟨1, 1⟩ (fun _ _ _ => 0) (Tensor.t2 [[1, -5, 2, 3]])
    (Compressed.c2 [[1, 0]] [[-5, 1]] 1 4) (by decide) (by decide)
    ([1, 0], [-5, 1]) (by decide)
  exact ⟨by decide, h.1, h.2.1, h.2.2⟩

theorem getD_map {α β : Type _} (f : α → β) {L : List α} {i : ℕ} (h : i < L.length)
    (d0 : α) (d : β) : (L.map f).getD i d = f (L.getD i d0) := by
  rw [List.getD_eq_getElem _ _ (by simpa using h), List.getElem_map,
    List.getD_eq_getElem _ _ h]

theorem zeros2_getD {r c i : ℕ} (h : i < r) : (zeros2 r c).getD i [] = zerosRow c := by
  have h2 : i < (List.replicate r (zerosRow c)).length := by simpa using h
  calc (zeros2 r c).getD i [] = (List.replicate r (zerosRow c)).getD i [] := rfl
    _ = (List.replicate r (zerosRow c))[i] := List.getD_eq_getElem _ _ h2
    _ = zerosRow c := List.getElem_replicate _ h2

theorem allIdxRow_no_rand {tk : ℕ} (h : 0 < tk) (rr r : List ℚ) :
    allIdxRow tk 0 rr r = topIdxRow tk r := by
  unfold allIdxRow
  rw [if_neg (by omega), if_pos h]

theorem compressRow_no_rand {tk : ℕ} (h : 0 < tk) (rr r : List ℚ) :
    compressRow tk 0 rr r = (topIdxRow tk r, gatherRow r (topIdxRow tk r)) := by
  unfold compressRow
  rw [allIdxRow_no_rand h]

/-- One-row lossless round-trip: full-width top-k selection, gathering, and
scatter-adding into zeros reproduces the row. -/
theorem scatterAddRow_roundtrip (xrow : List ℚ) (k : ℕ) (hk : xrow.length ≤ k) :
    scatterAddRow (zerosRow xrow.length) (topIdxRow k xrow)
      (gatherRow xrow (topIdxRow k xrow)) = xrow := by
  have hperm : (topIdxRow k xrow).Perm (List.range xrow.length) := by
    unfold topIdxRow
    have hp : (topkIndices k (xrow.map (fun v => |v|))).Perm
        (List.range (xrow.map (fun v => |v|)).length) :=
      topkIndices_perm_range (by simpa using hk)
    simpa using hp
  rw [scatterAddRow_perm_gather _ _ _ hperm (by simp [zerosRow])]
  exact zipWith_add_replicate_zero xrow

/-- One-row additive version: scatter-adding a full-coverage gather onto an
arbitrary base adds the row to the base. -/
theorem scatterAddRow_gather_add (xrow base : List ℚ) (k : ℕ) (hk : xrow.length ≤ k)
    (hb : base.length = xrow.length) :
    scatterAddRow base (topIdxRow k xrow) (gatherRow xrow (topIdxRow k xrow))
      = List.zipWith (· + ·) base xrow := by
  have hperm : (topIdxRow k xrow).Perm (List.range xrow.length) := by
    unfold topIdxRow
    have hp : (topkIndices k (xrow.map (fun v => |v|))).Perm
        (List.range (xrow.map (fun v => |v|)).length) :=
      topkIndices_perm_range (by simpa using hk)
    simpa using hp
  exact scatterAddRow_perm_gather _ _ _ hperm hb

theorem rows2_length (tk rk : ℕ) (g : ℕ → ℕ → ℚ) (x : List (List ℚ)) :
    (rows2 tk rk g x).length = x.length := by
  simp [rows2, randLike2_length]

theorem rows2_getD {tk rk : ℕ} {g : ℕ → ℕ → ℚ} {m : List (List ℚ)} {i : ℕ}
    (hi : i < m.length) :
    (rows2 tk rk g m).getD i ([], [])
      = compressRow tk rk ((randLike2 g m).getD i []) (m.getD i []) := by
  unfold rows2
  have hiz : i < (m.zip (randLike2 g m)).length := by
    rw [List.length_zip, randLike2_length]
    omega
  rw [getD_map (fun p => compressRow tk rk p.2 p.1) hiz ([], []) ([], []),
    List.getD_eq_getElem _ ([], []) hiz, List.getElem_zip,
    List.getD_eq_getElem m [] hi,
    List.getD_eq_getElem _ [] (by rw [randLike2_length]; omega)]

theorem rows3_length (tk rk : ℕ) (f : ℕ → ℕ → ℕ → ℚ) (v : List (List (List ℚ))) :
    (rows3 tk rk f v).length = v.length := by
  simp [rows3, randLike3_length]

theorem randLike3_getD {f : ℕ → ℕ → ℕ → ℚ} {v : List (List (List ℚ))} {y : ℕ}
    (hy : y < v.length) :
    (randLike3 f v).getD y [] = randLike2 (f y) (v.getD y []) := by
  unfold randLike3
  rw [getD_map (fun y2 => randLike2 (f y2) (v.getD y2 [])) (by simpa using hy) 0 [],
    List.getD_eq_getElem _ 0 (by simpa using hy), List.getElem_range]

theorem rows3_getD {tk rk : ℕ} {f : ℕ → ℕ → ℕ → ℚ} {v : List (List (List ℚ))} {y : ℕ}
    (hy : y < v.length) :
    (rows3 tk rk f v).getD y [] = rows2 tk rk (f y) (v.getD y []) := by
  unfold rows3 rows2
  have hyz : y < (v.zip (randLike3 f v)).length := by
    rw [List.length_zip, randLike3_length]
    omega
  rw [getD_map (fun s => (s.1.zip s.2).map (fun p => compressRow tk rk p.2 p.1))
      hyz ([], []) []]
  have hzip : (v.zip (randLike3 f v)).getD y ([], [])
      = (v.getD y [], (randLike3 f v).getD y []) := by
    rw [List.getD_eq_getElem _ ([], []) hyz, List.getElem_zip,
      List.getD_eq_getElem v [] hy,
      List.getD_eq_getElem _ [] (by rw [randLike3_length]; omega)]
  rw [hzip, randLike3_getD hy]

/-- The scatter_add_ guard holds for the rows produced by full-width top-k
compression. -/
theorem rows2_okRows (c : ℕ) (g : ℕ → ℕ → ℚ) (m : List (List ℚ)) (hc : 0 < c)
    (hrect : ∀ row ∈ m, row.length = c) :
    okRows c ((rows2 c 0 g m).map Prod.fst) ((rows2 c 0 g m).map Prod.snd) = true := by
  unfold okRows
  rw [Bool.and_eq_true]
  constructor
  · simp
  · rw [List.all_eq_true]
    intro p hp
    rw [List.zip_map'] at hp
    rcases List.mem_map.mp hp with ⟨q, hq, hqp⟩
    rcases List.mem_iff_getElem.mp hq with ⟨k, hk, hkq⟩
    have hkm : k < m.length := by rw [← rows2_length c 0 g m]; exact hk
    have hlen : (m.getD k []).length = c := hrect _ (getD_mem [] hkm)
    have hqval : q = (topIdxRow c (m.getD k []),
        gatherRow (m.getD k []) (topIdxRow c (m.getD k []))) := by
      rw [← hkq, ← List.getD_eq_getElem _ ([], []) hk, rows2_getD hkm,
        compressRow_no_rand hc]
    rw [← hqp, hqval, Bool.and_eq_true]
    constructor
    · simp [gatherRow_length]
    · rw [List.all_eq_true]
      intro i hi
      have hip := topIdxRow_lt i hi
      rw [hlen] at hip
      simpa using hip

/-- Full-width top-k compression of every row scatters back to the original
2D data. -/
theorem rows2_scatter_roundtrip (c : ℕ) (g : ℕ → ℕ → ℚ) (m : List (List ℚ))
    (hc : 0 < c) (hrect : ∀ row ∈ m, row.length = c) :
    scatterAdd2 (zeros2 m.length c) ((rows2 c 0 g m).map Prod.fst)
      ((rows2 c 0 g m).map Prod.snd) = m := by
  unfold scatterAdd2
  have hz : (zeros2 m.length c).length = m.length := by simp [zeros2]
  rw [hz]
  conv_rhs => rw [← range_map_getD m []]
  apply List.map_congr_left
  intro i hi
  have him : i < m.length := List.mem_range.mp hi
  have hlen : (m.getD i []).length = c := hrect _ (getD_mem [] him)
  rw [zeros2_getD him,
    getD_map Prod.fst (by rw [rows2_length]; exact him) ([], []) [],
    getD_map Prod.snd (by rw [rows2_length]; exact him) ([], []) [],
    rows2_getD him, compressRow_no_rand hc]
  have hrt := scatterAddRow_roundtrip (m.getD i []) c (by omega)
  rwa [hlen] at hrt

theorem flatten_replicate_rep {α : Type _} (n m : ℕ) (a : α) :
    (List.replicate n (List.replicate m a)).flatten = List.replicate (n * m) a := by
  induction n with
  | zero => simp
  | succ n ih =>
    rw [List.replicate_succ, List.flatten_cons, ih,
      show (n + 1) * m = m + n * m by ring, List.replicate_add]

theorem rearrangeSlice_zeros {I H W : ℕ} (hI : 0 < I) :
    rearrangeSlice (List.replicate I (List.replicate H (List.replicate W (0 : ℚ))))
      = List.replicate H (List.replicate (I * W) 0) := by
  unfold rearrangeSlice
  have hhead : (List.replicate I (List.replicate H (List.replicate W (0:ℚ)))).headD []
      = List.replicate H (List.replicate W 0) := by
    cases I with
    | zero => omega
    | succ n => rfl
  rw [hhead, List.length_replicate]
  have hfn : ∀ x ∈ List.range H,
      ((List.replicate I (List.replicate H (List.replicate W (0:ℚ)))).map
        (fun ah => ah.getD x [])).flatten = List.replicate (I * W) 0 := by
    intro x hx
    have hxH : x < H := List.mem_range.mp hx
    rw [List.map_replicate]
    have hg : (List.replicate H (List.replicate W (0:ℚ))).getD x [] = List.replicate W 0 := by
      have h2 : x < (List.replicate H (List.replicate W (0:ℚ))).length := by simpa using hxH
      rw [List.getD_eq_getElem _ _ h2, List.getElem_replicate]
    rw [hg, flatten_replicate_rep]
  rw [List.map_congr_left hfn, List.map_const', List.length_range]

theorem rearrange4_zeros {O I H W : ℕ} (hI : 0 < I) :
    rearrange4 (zeros4 O I H W) = List.replicate O (zeros2 H (I * W)) := by
  unfold rearrange4 zeros4
  rw [List.map_replicate, rearrangeSlice_zeros hI]
  rfl

/-- The inverse einops rearrange undoes the forward one on rectangular
positive-dimension slices. -/
theorem invRearrangeSlice_rearrangeSlice {ay : List (List (List ℚ))} {I H W : ℕ}
    (h : rect3 I H W ay) (hI : 0 < I) (hH : 0 < H) (hW : 0 < W) :
    invRearrangeSlice W (rearrangeSlice ay) = ay := by
  obtain ⟨hlen, hsl⟩ := h
  have hhead : ay.headD [] ∈ ay := by
    rw [headD_pos ay [] (by omega)]
    exact getD_mem [] (by omega)
  have hheadlen : (ay.headD []).length = H := (hsl _ hhead).1
  have hbhead : (rearrangeSlice ay).headD []
      = (ay.map (fun ah => ah.getD 0 [])).flatten := by
    unfold rearrangeSlice
    rw [hheadlen]
    cases H with
    | zero => omega
    | succ n =>
      rw [List.range_succ_eq_map]
      rfl
  have hW0 : ∀ l ∈ ay.map (fun ah => ah.getD 0 []), l.length = W := by
    intro l hl
    rcases List.mem_map.mp hl with ⟨ah, hah, hahl⟩
    have h2 := hsl ah hah
    rw [← hahl]
    exact h2.2 _ (getD_mem [] (by rw [h2.1]; omega))
  have hbheadlen : ((rearrangeSlice ay).headD []).length = I * W := by
    rw [hbhead, flatten_length_uniform hW0, List.length_map, hlen]
  unfold invRearrangeSlice
  rw [hbheadlen, Nat.mul_div_cancel I hW, ← hlen]
  conv_rhs => rw [← range_map_getD ay []]
  apply List.map_congr_left
  intro hh hhmem
  have hhI : hh < ay.length := List.mem_range.mp hhmem
  have hrow := hsl _ (getD_mem [] hhI)
  unfold rearrangeSlice
  rw [hheadlen, List.map_map]
  conv_rhs => rw [← range_map_getD (ay.getD hh []) []]
  rw [hrow.1]
  apply List.map_congr_left
  intro x hx
  have hxH : x < H := List.mem_range.mp hx
  have hWx : ∀ l ∈ ay.map (fun ah => ah.getD x []), l.length = W := by
    intro l hl
    rcases List.mem_map.mp hl with ⟨ah, hah, hahl⟩
    have h2 := hsl ah hah
    rw [← hahl]
    exact h2.2 _ (getD_mem [] (by rw [h2.1]; omega))
  have hhlen : hh < (ay.map (fun ah => ah.getD x [])).length := by
    rw [List.length_map, hlen]
    omega
  have hchunk := flatten_chunk hWx hhlen
  simp only [Function.comp_apply]
  rw [hchunk, getD_map (fun ah => ah.getD x []) hhI [] []]

theorem invRearrange4_rearrange4 {a : List (List (List (List ℚ)))} {O I H W : ℕ}
    (h : rect4 O I H W a) (hI : 0 < I) (hH : 0 < H) (hW : 0 < W) :
    invRearrange4 W (rearrange4 a) = a := by
  unfold invRearrange4 rearrange4
  rw [List.map_map]
  have hcongr : ∀ ay ∈ a, (invRearrangeSlice W ∘ rearrangeSlice) ay = ay := by
    intro ay hay
    simp only [Function.comp_apply]
    exact invRearrangeSlice_rearrangeSlice (h.2 ay hay) hI hH hW
  rw [List.map_congr_left hcongr]
  simp

/-- scatter_add_ guard for the slices of a compressed 3D view. -/
theorem rows3_slice_prop (c : ℕ) (f : ℕ → ℕ → ℕ → ℚ) (v : List (List (List ℚ)))
    (hc : 0 < c) (H : ℕ) (hrect : ∀ s ∈ v, rect2 H c s) :
    ∀ sp ∈ (rows3 c 0 f v).map (fun s => (s.map Prod.fst, s.map Prod.snd)),
      (decide (sp.1.length ≤ H) && okRows c sp.1 sp.2) = true := by
  intro sp hsp
  rcases List.mem_map.mp hsp with ⟨s, hs, hssp⟩
  rcases List.mem_iff_getElem.mp hs with ⟨k, hk, hks⟩
  have hkv : k < v.length := by rw [← rows3_length c 0 f v]; exact hk
  have hsval : s = rows2 c 0 (f k) (v.getD k []) := by
    rw [← hks, ← List.getD_eq_getElem _ [] hk, rows3_getD hkv]
  have hrk := hrect _ (getD_mem [] hkv)
  rw [← hssp, hsval, Bool.and_eq_true]
  constructor
  · simp only [List.length_map, rows2_length, hrk.1]
    simp
  · exact rows2_okRows c (f k) (v.getD k []) hc hrk.2

/-- Full-width top-k compression of every row of a 3D view scatters back to
the view. -/
theorem rows3_scatter_roundtrip (c : ℕ) (f : ℕ → ℕ → ℕ → ℚ)
    (v : List (List (List ℚ))) (hc : 0 < c) (H n : ℕ) (hn : n = v.length)
    (hrect : ∀ s ∈ v, rect2 H c s) :
    scatterAdd3 (List.replicate n (zeros2 H c))
      ((rows3 c 0 f v).map (fun s => s.map Prod.fst))
      ((rows3 c 0 f v).map (fun s => s.map Prod.snd)) = v := by
  subst hn
  unfold scatterAdd3
  rw [List.length_replicate]
  conv_rhs => rw [← range_map_getD v []]
  apply List.map_congr_left
  intro y hy
  have hyv : y < v.length := List.mem_range.mp hy
  have hrk := hrect _ (getD_mem [] hyv)
  have hzr : (List.replicate v.length (zeros2 H c)).getD y [] = zeros2 H c := by
    rw [List.getD_eq_getElem _ [] (by simpa using hyv), List.getElem_replicate]
  rw [getD_map (fun s => s.map Prod.fst) (by rw [rows3_length]; omega) [] [],
    getD_map (fun s => s.map Prod.snd) (by rw [rows3_length]; omega) [] [],
    rows3_getD hyv, hzr]
  have hrt := rows2_scatter_roundtrip c (f y) (v.getD y []) hc hrk.2
  rwa [hrk.1] at hrt

/-- Claim C1: with topk at least totalk (the size of the selectable last
logical axis) and randk = 0, decompressing a compression reproduces the
tensor exactly, element for element. -/
theorem roundtrip_exact (cfg : Cfg) (f : ℕ → ℕ → ℕ → ℚ) (t : Tensor)
    (hwf : wfT t) (hrandk : cfg.randk = 0) (htopk : totalkOf t ≤ cfg.topk) :
    (compressT cfg f t).bind decompressT = some t := by
  cases t with
  | t1 v =>
    have hn : 0 < v.length := hwf
    have htk : capTk cfg v.length = v.length := by
      unfold capTk
      simp only [totalkOf] at htopk
      omega
    have hrk : capRk cfg v.length = 0 := by
      unfold capRk
      rw [hrandk]
      omega
    have hcomp : compressT cfg f (Tensor.t1 v)
        = some (Compressed.c1 (topIdxRow v.length v)
            (gatherRow v (topIdxRow v.length v)) v.length) := by
      simp only [compressT, compress1, htk, hrk]
      rw [if_neg (by omega), compressRow_no_rand hn]
      rfl
    rw [hcomp, Option.some_bind]
    simp only [decompressT]
    have hguard : (decide ((topIdxRow v.length v).length
          ≤ (gatherRow v (topIdxRow v.length v)).length)
        && (topIdxRow v.length v).all (fun i => decide (i < v.length))) = true := by
      rw [Bool.and_eq_true]
      constructor
      · simp [gatherRow_length]
      · rw [List.all_eq_true]
        intro i hi
        simpa using topIdxRow_lt i hi
    have hdec : decompress1 (topIdxRow v.length v)
        (gatherRow v (topIdxRow v.length v)) v.length = some v := by
      unfold decompress1
      rw [if_pos hguard, scatterAddRow_roundtrip v v.length (le_refl _)]
    rw [hdec]
    rfl
  | t2 m =>
    obtain ⟨hr0, hc0, hrect⟩ := hwf
    have htk : capTk cfg (m.headD []).length = (m.headD []).length := by
      unfold capTk
      simp only [totalkOf] at htopk
      omega
    have hrk : capRk cfg (m.headD []).length = 0 := by
      unfold capRk
      rw [hrandk]
      omega
    have hcomp : compressT cfg f (Tensor.t2 m)
        = some (Compressed.c2
            ((rows2 (m.headD []).length 0 (f 0) m).map Prod.fst)
            ((rows2 (m.headD []).length 0 (f 0) m).map Prod.snd)
            m.length (m.headD []).length) := by
      simp only [compressT, compress2, htk, hrk]
      rw [if_neg (by omega)]
      rfl
    rw [hcomp, Option.some_bind]
    simp only [decompressT]
    have hrectm : ∀ row ∈ m, row.length = (m.headD []).length := hrect.2
    have hguard : (decide (((rows2 (m.headD []).length 0 (f 0) m).map Prod.fst).length
          ≤ m.length)
        && okRows (m.headD []).length
            ((rows2 (m.headD []).length 0 (f 0) m).map Prod.fst)
            ((rows2 (m.headD []).length 0 (f 0) m).map Prod.snd)) = true := by
      rw [Bool.and_eq_true]
      refine ⟨?_, rows2_okRows (m.headD []).length (f 0) m hc0 hrectm⟩
      simp [rows2_length]
    have hdec : decompress2
        ((rows2 (m.headD []).length 0 (f 0) m).map Prod.fst)
        ((rows2 (m.headD []).length 0 (f 0) m).map Prod.snd)
        m.length (m.headD []).length = some m := by
      unfold decompress2
      rw [if_pos hguard, rows2_scatter_roundtrip (m.headD []).length (f 0) m hc0 hrectm]
    rw [hdec]
    rfl
  | t4 a =>
    obtain ⟨hO, hI, hH, hW, hrect⟩ := hwf
    have hview := rearrange4_rect hrect hI
    have hvk : viewTotalk a
        = (a.headD []).length * (((a.headD []).headD []).headD []).length :=
      viewTotalk_eq hrect hO hI hH
    have hcpos : 0 < viewTotalk a := by
      rw [hvk]
      exact Nat.mul_pos hI hW
    have htk : capTk cfg (viewTotalk a) = viewTotalk a := by
      unfold capTk
      simp only [totalkOf] at htopk
      omega
    have hrk : capRk cfg (viewTotalk a) = 0 := by
      unfold capRk
      rw [hrandk]
      omega
    have hcomp : compressT cfg f (Tensor.t4 a)
        = some (Compressed.c4
            ((rows3 (viewTotalk a) 0 f (rearrange4 a)).map (fun s => s.map Prod.fst))
            ((rows3 (viewTotalk a) 0 f (rearrange4 a)).map (fun s => s.map Prod.snd))
            a.length (a.headD []).length ((a.headD []).headD []).length
            (((a.headD []).headD []).headD []).length) := by
      simp only [compressT, compress4, htk, hrk]
      rw [if_neg (by omega)]
      rfl
    rw [hcomp, Option.some_bind]
    simp only [decompressT]
    have hrectView : ∀ s ∈ rearrange4 a,
        rect2 (((a.headD []).headD []).length) (viewTotalk a) s := by
      intro s hs
      rw [hvk]
      exact hview.2 s hs
    have hA3len : ((rows3 (viewTotalk a) 0 f (rearrange4 a)).map
        (fun s => s.map Prod.fst)).length = a.length := by
      rw [List.length_map, rows3_length, hview.1]
    have hguard : (decide (((rows3 (viewTotalk a) 0 f (rearrange4 a)).map
            (fun s => s.map Prod.fst)).length ≤ a.length)
        && decide (((rows3 (viewTotalk a) 0 f (rearrange4 a)).map
            (fun s => s.map Prod.fst)).length
          ≤ ((rows3 (viewTotalk a) 0 f (rearrange4 a)).map
            (fun s => s.map Prod.snd)).length)
        && (((rows3 (viewTotalk a) 0 f (rearrange4 a)).map
            (fun s => s.map Prod.fst)).zip
          ((rows3 (viewTotalk a) 0 f (rearrange4 a)).map
            (fun s => s.map Prod.snd))).all
          (fun p => decide (p.1.length ≤ ((a.headD []).headD []).length)
            && okRows ((a.headD []).length
                * (((a.headD []).headD []).headD []).length) p.1 p.2)) = true := by
      rw [Bool.and_eq_true, Bool.and_eq_true]
      refine ⟨⟨?_, ?_⟩, ?_⟩
      · simp [hA3len]
      · simp [List.length_map]
      · rw [← hvk, List.zip_map', List.all_eq_true]
        intro sp hsp
        exact rows3_slice_prop (viewTotalk a) f (rearrange4 a) hcpos
          (((a.headD []).headD []).length) hrectView sp hsp
    have hdec : decompress4
        ((rows3 (viewTotalk a) 0 f (rearrange4 a)).map (fun s => s.map Prod.fst))
        ((rows3 (viewTotalk a) 0 f (rearrange4 a)).map (fun s => s.map Prod.snd))
        a.length (a.headD []).length ((a.headD []).headD []).length
        (((a.headD []).headD []).headD []).length = some a := by
      unfold decompress4
      rw [if_pos hguard, rearrange4_zeros hI, ← hvk,
        rows3_scatter_roundtrip (viewTotalk a) f (rearrange4 a) hcpos
          (((a.headD []).headD []).length) a.length hview.1.symm hrectView,
        invRearrange4_rearrange4 hrect hI hH hW]
    rw [hdec]
    rfl

/-- Witness for C1: the 1-by-4 tensor [[1, -5, 2, 0.1]] with topk = 4 and
randk = 0 decompresses back to itself exactly. -/
theorem roundtrip_exact_witness :
    wfT (Tensor.t2 [[1, -5, 2, (1 : ℚ)/10]])
      ∧ (compressT ⟨4, 0⟩ (fun _ _ _ => 0) (Tensor.t2 [[1, -5, 2, (1 : ℚ)/10]])).bind
          decompressT = some (Tensor.t2 [[1, -5, 2, (1 : ℚ)/10]]) :=
  ⟨by decide,
    roundtrip_exact ⟨4, 0⟩ (fun _ _ _ => 0) (Tensor.t2 [[1, -5, 2, (1 : ℚ)/10]])
      (by decide) rfl (by decide)⟩

instance rect2_decidable {α : Type} (r c : ℕ) (m : List (List α)) :
    Decidable (rect2 r c m) := by
  unfold rect2; infer_instance

instance rect3_decidable {α : Type} (x y z : ℕ)
    (t : List (List (List α))) : Decidable (rect3 x y z t) := by
  unfold rect3; infer_instance

instance rect4_decidable {α : Type} (O I H W : ℕ)
    (a : List (List (List (List α)))) : Decidable (rect4 O I H W a) := by
  unfold rect4; infer_instance

/-- Claim C4 (amended): compress normalizes a rank-4 tensor of shape
[O, I, H, W] (out-channels, in-channels, kernel height, kernel width) to the
3D view [O, H, I*W]: per-row top-k operates on O*H rows of length I*W, and
view row (o*H + x) holds t[o][h][x][w] at position h*W + w — the kernel
height axis joins the slice axes while the in-channel and kernel-width axes
merge into the single selectable axis. -/
theorem rank4_view_shape (a : List (List (List (List ℚ)))) (O I H W : ℕ)
    (hrect : rect4 O I H W a) (hO : 0 < O) (hI : 0 < I) (hH : 0 < H) (hW : 0 < W) :
    (viewRows (Tensor.t4 a)).length = O * H
      ∧ (∀ row ∈ viewRows (Tensor.t4 a), row.length = I * W)
      ∧ ∀ o h x w, o < O → h < I → x < H → w < W →
          ((viewRows (Tensor.t4 a)).getD (o * H + x) []).getD (h * W + w) 0
            = (((a.getD o []).getD h []).getD x []).getD w 0 := by
  have hview : rect3 O H (I * W) (rearrange4 a) := rearrange4_rect hrect hI
  have hslice : ∀ s ∈ rearrange4 a, s.length = H := fun s hs => (hview.2 s hs).1
  refine ⟨?_, ?_, ?_⟩
  · show (rearrange4 a).flatten.length = O * H
    rw [flatten_length_uniform hslice, hview.1]
  · intro row hrow
    rcases List.mem_flatten.mp hrow with ⟨s, hs, hrs⟩
    exact (hview.2 s hs).2 row hrs
  · intro o h x w ho hh hx hw
    show ((rearrange4 a).flatten.getD (o * H + x) []).getD (h * W + w) 0 = _
    rw [flatten_getD_uniform [] hslice (by rw [hview.1]; omega) hx]
    have hoa : o < a.length := by rw [hrect.1]; omega
    have hsliceval : (rearrange4 a).getD o [] = rearrangeSlice (a.getD o []) := by
      unfold rearrange4
      rw [getD_map rearrangeSlice hoa [] []]
    rw [hsliceval]
    have hayrect := hrect.2 _ (getD_mem [] hoa)
    have hayhead : ((a.getD o []).headD []).length = H := by
      have hmem : (a.getD o []).headD [] ∈ a.getD o [] := by
        rw [headD_pos (a.getD o []) [] (by rw [hayrect.1]; omega)]
        exact getD_mem [] (by rw [hayrect.1]; omega)
      exact (hayrect.2 _ hmem).1
    have hrowval : (rearrangeSlice (a.getD o [])).getD x []
        = ((a.getD o []).map (fun ah => ah.getD x [])).flatten := by
      unfold rearrangeSlice
      rw [hayhead,
        getD_map (fun x2 => ((a.getD o []).map (fun ah => ah.getD x2 [])).flatten)
          (by simpa using hx) 0 [],
        List.getD_eq_getElem _ 0 (by simpa using hx), List.getElem_range]
    have hWx : ∀ l ∈ (a.getD o []).map (fun ah => ah.getD x []), l.length = W := by
      intro l hl
      rcases List.mem_map.mp hl with ⟨ah, hah, hahl⟩
      have h2 := hayrect.2 ah hah
      rw [← hahl]
      exact h2.2 _ (getD_mem [] (by rw [h2.1]; omega))
    rw [hrowval,
      flatten_getD_uniform 0 hWx (by rw [List.length_map, hayrect.1]; omega) hw,
      getD_map (fun ah => ah.getD x []) (by rw [hayrect.1]; omega) [] []]

/-- Witness for C4 (amended): the rank-4 tensor [[[[1,2],[3,4]]]] of shape
[1,1,2,2] yields 1*2 selectable rows, and view row 0*2+1 position 0*2+1 is
t[0][0][1][1] = 4. -/
theorem rank4_view_shape_witness :
    rect4 1 1 2 2 ([[[[1, 2], [3, 4]]]] : List (List (List (List ℚ))))
      ∧ (viewRows (Tensor.t4 [[[[1, 2], [3, 4]]]])).length = 1 * 2
      ∧ ((viewRows (Tensor.t4 [[[[1, 2], [3, 4]]]])).getD (0 * 2 + 1) []).getD (0 * 2 + 1) 0
          = (((([[[[1, 2], [3, 4]]]] : List (List (List (List ℚ)))).getD 0 []).getD 0
              []).getD 1 []).getD 1 0 := by
  have h := rank4_view_shape [[[[1, 2], [3, 4]]]] 1 1 2 2 (by decide) (by decide)
    (by decide) (by decide) (by decide)
  exact ⟨by decide, h.1, h.2.2 0 0 1 1 (by decide) (by decide) (by decide) (by decide)⟩

theorem getD_zipWith {α β γ : Type _} (f : α → β → γ) {l1 : List α} {l2 : List β}
    {i : ℕ} (h1 : i < l1.length) (h2 : i < l2.length) (d1 : α) (d2 : β) (d : γ) :
    (List.zipWith f l1 l2).getD i d = f (l1.getD i d1) (l2.getD i d2) := by
  have hz : i < (List.zipWith f l1 l2).length := by
    rw [List.length_zipWith]
    omega
  rw [List.getD_eq_getElem _ _ hz, List.getElem_zipWith,
    List.getD_eq_getElem _ _ h1, List.getD_eq_getElem _ _ h2]

theorem getD_zip {α β : Type _} {l1 : List α} {l2 : List β} {i : ℕ}
    (h1 : i < l1.length) (h2 : i < l2.length) (d1 : α) (d2 : β) :
    (l1.zip l2).getD i (d1, d2) = (l1.getD i d1, l2.getD i d2) := by
  have hz : i < (l1.zip l2).length := by
    rw [List.length_zip]
    omega
  rw [List.getD_eq_getElem _ _ hz, List.getElem_zip,
    List.getD_eq_getElem _ _ h1, List.getD_eq_getElem _ _ h2]

theorem zipWith_congr_mem {α β γ : Type _} (f g : α → β → γ) :
    ∀ (l1 : List α) (l2 : List β), (∀ p ∈ l1.zip l2, f p.1 p.2 = g p.1 p.2) →
      List.zipWith f l1 l2 = List.zipWith g l1 l2 := by
  intro l1
  induction l1 with
  | nil => intro l2 h; rfl
  | cons a l1 ih =>
    intro l2 h
    cases l2 with
    | nil => rfl
    | cons b l2 =>
      rw [List.zipWith_cons_cons, List.zipWith_cons_cons,
        h (a, b) (by simp), ih l2 (fun p hp => h p (by simp [hp]))]

theorem rows2_fst_getD (c : ℕ) (g : ℕ → ℕ → ℚ) (m : List (List ℚ)) (k : ℕ)
    (hc : 0 < c) (hk : k < m.length) :
    ((rows2 c 0 g m).map Prod.fst).getD k [] = topIdxRow c (m.getD k []) := by
  rw [getD_map Prod.fst (by rw [rows2_length]; omega) ([], []) [], rows2_getD hk,
    compressRow_no_rand hc]

theorem rows2_snd_getD (c : ℕ) (g : ℕ → ℕ → ℚ) (m : List (List ℚ)) (k : ℕ)
    (hc : 0 < c) (hk : k < m.length) :
    ((rows2 c 0 g m).map Prod.snd).getD k []
      = gatherRow (m.getD k []) (topIdxRow c (m.getD k [])) := by
  rw [getD_map Prod.snd (by rw [rows2_length]; omega) ([], []) [], rows2_getD hk,
    compressRow_no_rand hc]

/-- The scatter_add_ guard holds for the row-wise concatenation of two
full-coverage compressions of same-shape 2D data. -/
theorem rows2_merge_okRows (c : ℕ) (g1 g2 : ℕ → ℕ → ℚ) (m1 m2 : List (List ℚ))
    (hc : 0 < c) (hlen : m1.length = m2.length)
    (hrect1 : ∀ row ∈ m1, row.length = c) (hrect2 : ∀ row ∈ m2, row.length = c) :
    okRows c
      (List.zipWith (· ++ ·) ((rows2 c 0 g1 m1).map Prod.fst)
        ((rows2 c 0 g2 m2).map Prod.fst))
      (List.zipWith (· ++ ·) ((rows2 c 0 g1 m1).map Prod.snd)
        ((rows2 c 0 g2 m2).map Prod.snd)) = true := by
  unfold okRows
  rw [Bool.and_eq_true]
  constructor
  · simp [List.length_zipWith, rows2_length, hlen]
  · rw [List.all_eq_true]
    intro p hp
    rcases List.mem_iff_getElem.mp hp with ⟨k, hkz, hkp⟩
    have hk1 : k < m1.length := by
      simp only [List.length_zip, List.length_zipWith, List.length_map,
        rows2_length] at hkz
      omega
    have hk2 : k < m2.length := by omega
    have hA1 : k < ((rows2 c 0 g1 m1).map Prod.fst).length := by
      rw [List.length_map, rows2_length]; omega
    have hA2 : k < ((rows2 c 0 g2 m2).map Prod.fst).length := by
      rw [List.length_map, rows2_length]; omega
    have hB1 : k < ((rows2 c 0 g1 m1).map Prod.snd).length := by
      rw [List.length_map, rows2_length]; omega
    have hB2 : k < ((rows2 c 0 g2 m2).map Prod.snd).length := by
      rw [List.length_map, rows2_length]; omega
    have hkp2 : ((List.zipWith (· ++ ·) ((rows2 c 0 g1 m1).map Prod.fst)
          ((rows2 c 0 g2 m2).map Prod.fst)).zip
        (List.zipWith (· ++ ·) ((rows2 c 0 g1 m1).map Prod.snd)
          ((rows2 c 0 g2 m2).map Prod.snd))).getD k ([], []) = p := by
      rw [List.getD_eq_getElem _ _ hkz]
      exact hkp
    have hpeq : p = (topIdxRow c (m1.getD k []) ++ topIdxRow c (m2.getD k []),
        gatherRow (m1.getD k []) (topIdxRow c (m1.getD k []))
          ++ gatherRow (m2.getD k []) (topIdxRow c (m2.getD k []))) := by
      rw [← hkp2,
        getD_zip (by rw [List.length_zipWith]; omega) (by rw [List.length_zipWith]; omega)
          [] [],
        getD_zipWith (· ++ ·) hA1 hA2 [] [] [],
        getD_zipWith (· ++ ·) hB1 hB2 [] [] [],
        rows2_fst_getD c g1 m1 k hc hk1, rows2_fst_getD c g2 m2 k hc hk2,
        rows2_snd_getD c g1 m1 k hc hk1, rows2_snd_getD c g2 m2 k hc hk2]
    have hl1 : (m1.getD k []).length = c := hrect1 _ (getD_mem [] hk1)
    have hl2 : (m2.getD k []).length = c := hrect2 _ (getD_mem [] hk2)
    rw [hpeq, Bool.and_eq_true]
    constructor
    · simp [gatherRow_length]
    · rw [List.all_eq_true]
      intro i hi
      rcases List.mem_append.mp hi with h | h
      · have hlt := topIdxRow_lt i h
        rw [hl1] at hlt
        simpa using hlt
      · have hlt := topIdxRow_lt i h
        rw [hl2] at hlt
        simpa using hlt

/-- Scattering the row-wise concatenation of two full-coverage compressions
into zeros yields the exact elementwise sum of the two 2D sources. -/
theorem rows2_merge_scatter (c : ℕ) (g1 g2 : ℕ → ℕ → ℚ) (m1 m2 : List (List ℚ))
    (hc : 0 < c) (hlen : m1.length = m2.length)
    (hrect1 : ∀ row ∈ m1, row.length = c) (hrect2 : ∀ row ∈ m2, row.length = c) :
    scatterAdd2 (zeros2 m1.length c)
      (List.zipWith (· ++ ·) ((rows2 c 0 g1 m1).map Prod.fst)
        ((rows2 c 0 g2 m2).map Prod.fst))
      (List.zipWith (· ++ ·) ((rows2 c 0 g1 m1).map Prod.snd)
        ((rows2 c 0 g2 m2).map Prod.snd))
      = List.zipWith (fun r s => List.zipWith (· + ·) r s) m1 m2 := by
  unfold scatterAdd2
  rw [show (zeros2 m1.length c).length = m1.length by simp [zeros2]]
  rw [zipWith_eq_range_map (fun r s => List.zipWith (· + ·) r s) m1 m2 [] [] hlen]
  apply List.map_congr_left
  intro i hi
  have hi1 : i < m1.length := List.mem_range.mp hi
  have hi2 : i < m2.length := by omega
  have hA1 : i < ((rows2 c 0 g1 m1).map Prod.fst).length := by
    rw [List.length_map, rows2_length]; omega
  have hA2 : i < ((rows2 c 0 g2 m2).map Prod.fst).length := by
    rw [List.length_map, rows2_length]; omega
  have hB1 : i < ((rows2 c 0 g1 m1).map Prod.snd).length := by
    rw [List.length_map, rows2_length]; omega
  have hB2 : i < ((rows2 c 0 g2 m2).map Prod.snd).length := by
    rw [List.length_map, rows2_length]; omega
  rw [zeros2_getD hi1,
    getD_zipWith (· ++ ·) hA1 hA2 [] [] [],
    getD_zipWith (· ++ ·) hB1 hB2 [] [] [],
    rows2_fst_getD c g1 m1 i hc hi1, rows2_fst_getD c g2 m2 i hc hi2,
    rows2_snd_getD c g1 m1 i hc hi1, rows2_snd_getD c g2 m2 i hc hi2]
  have hl1 : (m1.getD i []).length = c := hrect1 _ (getD_mem [] hi1)
  have hl2 : (m2.getD i []).length = c := hrect2 _ (getD_mem [] hi2)
  rw [scatterAddRow_append _ _ _ _ _ (gatherRow_length _ _).symm]
  have hrt := scatterAddRow_roundtrip (m1.getD i []) c (by omega)
  rw [hl1] at hrt
  rw [hrt, scatterAddRow_gather_add (m2.getD i []) (m1.getD i []) c (by omega)
    (by omega)]

/-- The inverse einops rearrange distributes over elementwise sums of
rectangular 2D views. -/
theorem invRearrangeSlice_add {sa sb : List (List ℚ)} {H M W : ℕ}
    (ha : rect2 H M sa) (hb : rect2 H M sb) (hH : 0 < H) :
    invRearrangeSlice W (List.zipWith (fun r s => List.zipWith (· + ·) r s) sa sb)
      = List.zipWith
          (fun p1 p2 => List.zipWith (fun r1 r2 => List.zipWith (· + ·) r1 r2) p1 p2)
          (invRearrangeSlice W sa) (invRearrangeSlice W sb) := by
  have hsa0 : 0 < sa.length := by rw [ha.1]; omega
  have hsb0 : 0 < sb.length := by rw [hb.1]; omega
  have hheada : (sa.headD []).length = M := by
    refine ha.2 _ ?_
    rw [headD_pos sa [] hsa0]
    exact getD_mem [] hsa0
  have hheadb : (sb.headD []).length = M := by
    refine hb.2 _ ?_
    rw [headD_pos sb [] hsb0]
    exact getD_mem [] hsb0
  have hheadz : ((List.zipWith (fun r s => List.zipWith (· + ·) r s) sa sb).headD
      []).length = M := by
    cases sa with
    | nil => simp at hsa0
    | cons ra sa2 =>
      cases sb with
      | nil => simp at hsb0
      | cons rb sb2 =>
        rw [List.zipWith_cons_cons, List.headD_cons, List.length_zipWith]
        rw [List.headD_cons] at hheada hheadb
        omega
  unfold invRearrangeSlice
  rw [hheadz, hheada, hheadb, List.zipWith_map, List.zipWith_same]
  apply List.map_congr_left
  intro h hh
  rw [List.map_zipWith, List.zipWith_map]
  congr 1
  funext ra rb
  rw [List.drop_zipWith, List.take_zipWith]

/-- The inverse einops rearrange distributes over elementwise sums of
rectangular 3D views. -/
theorem invRearrange4_add {va vb : List (List (List ℚ))} {O H M W : ℕ}
    (ha : rect3 O H M va) (hb : rect3 O H M vb) (hH : 0 < H) :
    invRearrange4 W (List.zipWith
        (fun s1 s2 => List.zipWith (fun r s => List.zipWith (· + ·) r s) s1 s2) va vb)
      = List.zipWith
          (fun p1 p2 => List.zipWith
            (fun q1 q2 => List.zipWith (fun r1 r2 => List.zipWith (· + ·) r1 r2) q1 q2)
            p1 p2)
          (invRearrange4 W va) (invRearrange4 W vb) := by
  unfold invRearrange4
  rw [List.map_zipWith, List.zipWith_map]
  apply zipWith_congr_mem
  intro p hp
  obtain ⟨hp1, hp2⟩ := List.of_mem_zip hp
  exact invRearrangeSlice_add (ha.2 _ hp1) (hb.2 _ hp2) hH

/-- scatter_add_ guard for the slice-wise concatenation of two compressed 3D
views. -/
theorem rows3_merge_prop (c : ℕ) (f1 f2 : ℕ → ℕ → ℕ → ℚ)
    (va vb : List (List (List ℚ))) (hc : 0 < c) (H : ℕ)
    (hlen : va.length = vb.length)
    (hrecta : ∀ s ∈ va, rect2 H c s) (hrectb : ∀ s ∈ vb, rect2 H c s) :
    ∀ p ∈ ((List.zipWith (fun x y => List.zipWith (· ++ ·) x y)
          ((rows3 c 0 f1 va).map (fun s => s.map Prod.fst))
          ((rows3 c 0 f2 vb).map (fun s => s.map Prod.fst))).zip
        (List.zipWith (fun x y => List.zipWith (· ++ ·) x y)
          ((rows3 c 0 f1 va).map (fun s => s.map Prod.snd))
          ((rows3 c 0 f2 vb).map (fun s => s.map Prod.snd)))),
      (decide (p.1.length ≤ H) && okRows c p.1 p.2) = true := by
  intro p hp
  rcases List.mem_iff_getElem.mp hp with ⟨k, hkz, hkp⟩
  have hka : k < va.length := by
    simp only [List.length_zip, List.length_zipWith, List.length_map,
      rows3_length] at hkz
    omega
  have hkb : k < vb.length := by omega
  have hIa : k < ((rows3 c 0 f1 va).map (fun s => s.map Prod.fst)).length := by
    rw [List.length_map, rows3_length]; omega
  have hIb : k < ((rows3 c 0 f2 vb).map (fun s => s.map Prod.fst)).length := by
    rw [List.length_map, rows3_length]; omega
  have hVa : k < ((rows3 c 0 f1 va).map (fun s => s.map Prod.snd)).length := by
    rw [List.length_map, rows3_length]; omega
  have hVb : k < ((rows3 c 0 f2 vb).map (fun s => s.map Prod.snd)).length := by
    rw [List.length_map, rows3_length]; omega
  have hsa : ((rows3 c 0 f1 va).map (fun s => s.map Prod.fst)).getD k []
      = (rows2 c 0 (f1 k) (va.getD k [])).map Prod.fst := by
    rw [getD_map (fun s => s.map Prod.fst) (by rw [rows3_length]; omega) [] [],
      rows3_getD hka]
  have hsb : ((rows3 c 0 f2 vb).map (fun s => s.map Prod.fst)).getD k []
      = (rows2 c 0 (f2 k) (vb.getD k [])).map Prod.fst := by
    rw [getD_map (fun s => s.map Prod.fst) (by rw [rows3_length]; omega) [] [],
      rows3_getD hkb]
  have hta : ((rows3 c 0 f1 va).map (fun s => s.map Prod.snd)).getD k []
      = (rows2 c 0 (f1 k) (va.getD k [])).map Prod.snd := by
    rw [getD_map (fun s => s.map Prod.snd) (by rw [rows3_length]; omega) [] [],
      rows3_getD hka]
  have htb : ((rows3 c 0 f2 vb).map (fun s => s.map Prod.snd)).getD k []
      = (rows2 c 0 (f2 k) (vb.getD k [])).map Prod.snd := by
    rw [getD_map (fun s => s.map Prod.snd) (by rw [rows3_length]; omega) [] [],
      rows3_getD hkb]
  have hkp2 : ((List.zipWith (fun x y => List.zipWith (· ++ ·) x y)
        ((rows3 c 0 f1 va).map (fun s => s.map Prod.fst))
        ((rows3 c 0 f2 vb).map (fun s => s.map Prod.fst))).zip
      (List.zipWith (fun x y => List.zipWith (· ++ ·) x y)
        ((rows3 c 0 f1 va).map (fun s => s.map Prod.snd))
        ((rows3 c 0 f2 vb).map (fun s => s.map Prod.snd)))).getD k ([], []) = p := by
    rw [List.getD_eq_getElem _ _ hkz]
    exact hkp
  have hHa : (va.getD k []).length = H := (hrecta _ (getD_mem [] hka)).1
  have hHb : (vb.getD k []).length = H := (hrectb _ (getD_mem [] hkb)).1
  have hpeq : p = (List.zipWith (· ++ ·)
        ((rows2 c 0 (f1 k) (va.getD k [])).map Prod.fst)
        ((rows2 c 0 (f2 k) (vb.getD k [])).map Prod.fst),
      List.zipWith (· ++ ·)
        ((rows2 c 0 (f1 k) (va.getD k [])).map Prod.snd)
        ((rows2 c 0 (f2 k) (vb.getD k [])).map Prod.snd)) := by
    rw [← hkp2,
      getD_zip (by rw [List.length_zipWith]; omega) (by rw [List.length_zipWith]; omega)
        [] [],
      getD_zipWith (fun x y => List.zipWith (· ++ ·) x y) hIa hIb [] [] [],
      getD_zipWith (fun x y => List.zipWith (· ++ ·) x y) hVa hVb [] [] [],
      hsa, hsb, hta, htb]
  rw [hpeq, Bool.and_eq_true]
  constructor
  · have hcl : (List.zipWith (· ++ ·)
        ((rows2 c 0 (f1 k) (va.getD k [])).map Prod.fst)
        ((rows2 c 0 (f2 k) (vb.getD k [])).map Prod.fst)).length = H := by
      rw [List.length_zipWith, List.length_map, List.length_map, rows2_length,
        rows2_length, hHa, hHb, min_self]
    rw [hcl]
    simp
  · exact rows2_merge_okRows c (f1 k) (f2 k) (va.getD k []) (vb.getD k []) hc
      (by rw [hHa, hHb]) (hrecta _ (getD_mem [] hka)).2 (hrectb _ (getD_mem [] hkb)).2

/-- Scattering the slice-wise concatenation of two full-coverage compressed
3D views into zeros yields the exact elementwise sum of the views. -/
theorem rows3_merge_scatter (c : ℕ) (f1 f2 : ℕ → ℕ → ℕ → ℚ)
    (va vb : List (List (List ℚ))) (hc : 0 < c) (H n : ℕ) (hn : n = va.length)
    (hlen : va.length = vb.length)
    (hrecta : ∀ s ∈ va, rect2 H c s) (hrectb : ∀ s ∈ vb, rect2 H c s) :
    scatterAdd3 (List.replicate n (zeros2 H c))
      (List.zipWith (fun x y => List.zipWith (· ++ ·) x y)
        ((rows3 c 0 f1 va).map (fun s => s.map Prod.fst))
        ((rows3 c 0 f2 vb).map (fun s => s.map Prod.fst)))
      (List.zipWith (fun x y => List.zipWith (· ++ ·) x y)
        ((rows3 c 0 f1 va).map (fun s => s.map Prod.snd))
        ((rows3 c 0 f2 vb).map (fun s => s.map Prod.snd)))
      = List.zipWith
          (fun s1 s2 => List.zipWith (fun r s => List.zipWith (· + ·) r s) s1 s2)
          va vb := by
  subst hn
  unfold scatterAdd3
  rw [List.length_replicate,
    zipWith_eq_range_map
      (fun s1 s2 => List.zipWith (fun r s => List.zipWith (· + ·) r s) s1 s2)
      va vb [] [] hlen]
  apply List.map_congr_left
  intro y hy
  have hya : y < va.length := List.mem_range.mp hy
  have hyb : y < vb.length := by omega
  have hIa : y < ((rows3 c 0 f1 va).map (fun s => s.map Prod.fst)).length := by
    rw [List.length_map, rows3_length]; omega
  have hIb : y < ((rows3 c 0 f2 vb).map (fun s => s.map Prod.fst)).length := by
    rw [List.length_map, rows3_length]; omega
  have hVa : y < ((rows3 c 0 f1 va).map (fun s => s.map Prod.snd)).length := by
    rw [List.length_map, rows3_length]; omega
  have hVb : y < ((rows3 c 0 f2 vb).map (fun s => s.map Prod.snd)).length := by
    rw [List.length_map, rows3_length]; omega
  have hzr : (List.replicate va.length (zeros2 H c)).getD y [] = zeros2 H c := by
    rw [List.getD_eq_getElem _ [] (by simpa using hya), List.getElem_replicate]
  have hsa : ((rows3 c 0 f1 va).map (fun s => s.map Prod.fst)).getD y []
      = (rows2 c 0 (f1 y) (va.getD y [])).map Prod.fst := by
    rw [getD_map (fun s => s.map Prod.fst) (by rw [rows3_length]; omega) [] [],
      rows3_getD hya]
  have hsb : ((rows3 c 0 f2 vb).map (fun s => s.map Prod.fst)).getD y []
      = (rows2 c 0 (f2 y) (vb.getD y [])).map Prod.fst := by
    rw [getD_map (fun s => s.map Prod.fst) (by rw [rows3_length]; omega) [] [],
      rows3_getD hyb]
  have hta : ((rows3 c 0 f1 va).map (fun s => s.map Prod.snd)).getD y []
      = (rows2 c 0 (f1 y) (va.getD y [])).map Prod.snd := by
    rw [getD_map (fun s => s.map Prod.snd) (by rw [rows3_length]; omega) [] [],
      rows3_getD hya]
  have htb : ((rows3 c 0 f2 vb).map (fun s => s.map Prod.snd)).getD y []
      = (rows2 c 0 (f2 y) (vb.getD y [])).map Prod.snd := by
    rw [getD_map (fun s => s.map Prod.snd) (by rw [rows3_length]; omega) [] [],
      rows3_getD hyb]
  have hHa : (va.getD y []).length = H := (hrecta _ (getD_mem [] hya)).1
  have hHb : (vb.getD y []).length = H := (hrectb _ (getD_mem [] hyb)).1
  rw [hzr,
    getD_zipWith (fun x y2 => List.zipWith (· ++ ·) x y2) hIa hIb [] [] [],
    getD_zipWith (fun x y2 => List.zipWith (· ++ ·) x y2) hVa hVb [] [] [],
    hsa, hsb, hta, htb]
  have hsc := rows2_merge_scatter c (f1 y) (f2 y) (va.getD y []) (vb.getD y []) hc
    (by rw [hHa, hHb]) (hrecta _ (getD_mem [] hya)).2 (hrectb _ (getD_mem [] hyb)).2
  rw [hHa] at hsc
  exact hsc

theorem concatLast1_pair {α : Type _} (i1 i2 : List α) :
    concatLast1 [i1, i2] = some (i1 ++ i2) := by
  show some ([i1, i2].flatten) = some (i1 ++ i2)
  rw [List.flatten_cons, List.flatten_cons, List.flatten_nil, List.append_nil]

theorem concatLast2_pair {α : Type _} (A1 A2 : List (List α))
    (h : A2.length = A1.length) :
    concatLast2 [A1, A2] = some (List.zipWith (· ++ ·) A1 A2) := by
  have heq : concatLast2 [A1, A2]
      = if [A2].all (fun u => decide (u.length = A1.length))
        then some ([A2].foldl (fun acc u => List.zipWith (· ++ ·) acc u) A1)
        else none := rfl
  rw [heq, if_pos (by simp [h])]
  rfl

theorem concatLast3_pair {α : Type _} (A1 A2 : List (List (List α)))
    (h1 : A2.length = A1.length)
    (h2 : ∀ p ∈ A2.zip A1, p.1.length = p.2.length) :
    concatLast3 [A1, A2]
      = some (List.zipWith (fun x y => List.zipWith (· ++ ·) x y) A1 A2) := by
  have heq : concatLast3 [A1, A2]
      = if [A2].all (fun u => decide (u.length = A1.length)
            && (u.zip A1).all (fun p => decide (p.1.length = p.2.length)))
        then some ([A2].foldl
          (fun acc u => List.zipWith (fun x y => List.zipWith (· ++ ·) x y) acc u) A1)
        else none := rfl
  rw [heq, if_pos]
  · rfl
  · simp only [List.all_cons, List.all_nil, Bool.and_true, Bool.and_eq_true,
      decide_eq_true_eq]
    refine ⟨h1, List.all_eq_true.mpr ?_⟩
    intro p hp
    simpa using h2 p hp

theorem randLike3_mem_slice_length {f : ℕ → ℕ → ℕ → ℚ} {v : List (List (List ℚ))}
    {H : ℕ} (hv : ∀ s ∈ v, s.length = H) :
    ∀ s2 ∈ randLike3 f v, s2.length = H := by
  intro s2 hs2
  unfold randLike3 at hs2
  rcases List.mem_map.mp hs2 with ⟨y, hy, hys⟩
  have hyv : y < v.length := List.mem_range.mp hy
  rw [← hys, randLike2_length]
  exact hv _ (getD_mem [] hyv)

theorem rows3_mem_length {c rk : ℕ} {f : ℕ → ℕ → ℕ → ℚ} {v : List (List (List ℚ))}
    {H : ℕ} (hv : ∀ s ∈ v, s.length = H) :
    ∀ sl ∈ rows3 c rk f v, sl.length = H := by
  intro sl hsl
  rcases List.mem_map.mp hsl with ⟨q, hq, hqsl⟩
  obtain ⟨hq1, hq2⟩ := List.of_mem_zip hq
  rw [← hqsl, List.length_map, List.length_zip, hv _ hq1,
    randLike3_mem_slice_length hv _ hq2, min_self]

/-- Claim C2: merging (batch-decompressing) the full-coverage compressions
(topk = totalk, randk = 0) of two same-shape tensors yields exactly their
elementwise sum. -/
theorem merge_additivity (cfg : Cfg) (f g : ℕ → ℕ → ℕ → ℚ) (t u : Tensor)
    (ca cb : Compressed) (hwft : wfT t) (hwfu : wfT u)
    (hshape : shapeOf t = shapeOf u) (htopk : cfg.topk = totalkOf t)
    (hrandk : cfg.randk = 0)
    (hca : compressT cfg f t = some ca) (hcb : compressT cfg g u = some cb) :
    batchDecompressT [ca, cb] = some (addT t u) := by
  cases t with
  | t1 v =>
    cases u with
    | t2 m2 => exact absurd hshape (by simp [shapeOf])
    | t4 a2 => exact absurd hshape (by simp [shapeOf])
    | t1 u1 =>
      have hn1 : 0 < v.length := hwft
      have hn2 : 0 < u1.length := hwfu
      have hlen12 : v.length = u1.length := by
        simp only [shapeOf, List.cons.injEq] at hshape
        exact hshape.1
      simp only [totalkOf] at htopk
      have htk1 : capTk cfg v.length = v.length := by unfold capTk; omega
      have hrk1 : capRk cfg v.length = 0 := by unfold capRk; rw [hrandk]; omega
      have htk2 : capTk cfg u1.length = u1.length := by unfold capTk; omega
      have hrk2 : capRk cfg u1.length = 0 := by unfold capRk; rw [hrandk]; omega
      obtain ⟨hd1, hcaeq⟩ := compressT_t1 hca
      rw [htk1, hrk1, compressRow_no_rand hn1] at hcaeq
      have hca2 : ca = Compressed.c1 (topIdxRow v.length v)
          (gatherRow v (topIdxRow v.length v)) v.length := hcaeq
      obtain ⟨hd2, hcbeq⟩ := compressT_t1 hcb
      rw [htk2, hrk2, compressRow_no_rand hn2] at hcbeq
      have hcb2 : cb = Compressed.c1 (topIdxRow u1.length u1)
          (gatherRow u1 (topIdxRow u1.length u1)) u1.length := hcbeq
      subst hca2
      subst hcb2
      have hguard : (decide ((topIdxRow v.length v ++ topIdxRow u1.length u1).length
            ≤ (gatherRow v (topIdxRow v.length v)
              ++ gatherRow u1 (topIdxRow u1.length u1)).length)
          && (topIdxRow v.length v ++ topIdxRow u1.length u1).all
              (fun i => decide (i < v.length))) = true := by
        rw [Bool.and_eq_true]
        constructor
        · simp [gatherRow_length]
        · rw [List.all_eq_true]
          intro i hi
          rcases List.mem_append.mp hi with h | h
          · simpa using topIdxRow_lt i h
          · have hlt := topIdxRow_lt i h
            simp only [decide_eq_true_eq]
            omega
      have hdec : decompress1 (topIdxRow v.length v ++ topIdxRow u1.length u1)
          (gatherRow v (topIdxRow v.length v)
            ++ gatherRow u1 (topIdxRow u1.length u1)) v.length
          = some (List.zipWith (· + ·) v u1) := by
        unfold decompress1
        rw [if_pos hguard,
          scatterAddRow_append _ _ _ _ _ (gatherRow_length _ _).symm,
          scatterAddRow_roundtrip v v.length (le_refl _),
          scatterAddRow_gather_add u1 v u1.length (le_refl _) hlen12]
      simp only [batchDecompressT, optMapM, Option.some_bind, Option.map_some',
        List.map_cons, List.map_nil]
      rw [concatLast1_pair, concatLast1_pair]
      simp only [Option.some_bind]
      rw [hdec]
      rfl
  | t2 m1 =>
    cases u with
    | t1 u1 => exact absurd hshape (by simp [shapeOf])
    | t4 a2 => exact absurd hshape (by simp [shapeOf])
    | t2 m2 =>
      obtain ⟨hr1, hc1, hrect1⟩ := hwft
      obtain ⟨hr2, hc2, hrect2⟩ := hwfu
      have hsh : m1.length = m2.length
          ∧ (m1.headD []).length = (m2.headD []).length := by
        simp only [shapeOf, List.cons.injEq] at hshape
        exact ⟨hshape.1, hshape.2.1⟩
      simp only [totalkOf] at htopk
      have htk1 : capTk cfg (m1.headD []).length = (m1.headD []).length := by
        unfold capTk; omega
      have hrk1 : capRk cfg (m1.headD []).length = 0 := by
        unfold capRk; rw [hrandk]; omega
      have htk2 : capTk cfg (m2.headD []).length = (m2.headD []).length := by
        unfold capTk; omega
      have hrk2 : capRk cfg (m2.headD []).length = 0 := by
        unfold capRk; rw [hrandk]; omega
      obtain ⟨hd1, hcaeq⟩ := compressT_t2 hca
      rw [htk1, hrk1] at hcaeq
      obtain ⟨hd2, hcbeq⟩ := compressT_t2 hcb
      rw [htk2, hrk2, ← hsh.2] at hcbeq
      subst hcaeq
      subst hcbeq
      have hrows2 : ∀ row ∈ m2, row.length = (m1.headD []).length := by
        intro row hrow
        rw [hsh.2]
        exact hrect2.2 row hrow
      have hlenA : ((rows2 (m1.headD []).length 0 (g 0) m2).map Prod.fst).length
          = ((rows2 (m1.headD []).length 0 (f 0) m1).map Prod.fst).length := by
        rw [List.length_map, List.length_map, rows2_length, rows2_length, hsh.1]
      have hlenB : ((rows2 (m1.headD []).length 0 (g 0) m2).map Prod.snd).length
          = ((rows2 (m1.headD []).length 0 (f 0) m1).map Prod.snd).length := by
        rw [List.length_map, List.length_map, rows2_length, rows2_length, hsh.1]
      have hguard : (decide ((List.zipWith (· ++ ·)
              ((rows2 (m1.headD []).length 0 (f 0) m1).map Prod.fst)
              ((rows2 (m1.headD []).length 0 (g 0) m2).map Prod.fst)).length
            ≤ m1.length)
          && okRows (m1.headD []).length
            (List.zipWith (· ++ ·)
              ((rows2 (m1.headD []).length 0 (f 0) m1).map Prod.fst)
              ((rows2 (m1.headD []).length 0 (g 0) m2).map Prod.fst))
            (List.zipWith (· ++ ·)
              ((rows2 (m1.headD []).length 0 (f 0) m1).map Prod.snd)
              ((rows2 (m1.headD []).length 0 (g 0) m2).map Prod.snd))) = true := by
        rw [Bool.and_eq_true]
        constructor
        · simp [List.length_zipWith, rows2_length, hsh.1]
        · exact rows2_merge_okRows (m1.headD []).length (f 0) (g 0) m1 m2 hc1
            hsh.1 hrect1.2 hrows2
      have hdec : decompress2
          (List.zipWith (· ++ ·)
            ((rows2 (m1.headD []).length 0 (f 0) m1).map Prod.fst)
            ((rows2 (m1.headD []).length 0 (g 0) m2).map Prod.fst))
          (List.zipWith (· ++ ·)
            ((rows2 (m1.headD []).length 0 (f 0) m1).map Prod.snd)
            ((rows2 (m1.headD []).length 0 (g 0) m2).map Prod.snd))
          m1.length (m1.headD []).length
          = some (List.zipWith (fun r s => List.zipWith (· + ·) r s) m1 m2) := by
        unfold decompress2
        rw [if_pos hguard,
          rows2_merge_scatter (m1.headD []).length (f 0) (g 0) m1 m2 hc1 hsh.1
            hrect1.2 hrows2]
      simp only [batchDecompressT, optMapM, Option.some_bind, Option.map_some',
        List.map_cons, List.map_nil]
      rw [concatLast2_pair _ _ hlenA, concatLast2_pair _ _ hlenB]
      simp only [Option.some_bind]
      rw [hdec]
      rfl
  | t4 a1 =>
    cases u with
    | t1 u1 => exact absurd hshape (by simp [shapeOf])
    | t2 m2 => exact absurd hshape (by simp [shapeOf])
    | t4 a2 =>
      obtain ⟨hO1, hI1, hH1, hW1, hrect1⟩ := hwft
      obtain ⟨hO2, hI2, hH2, hW2, hrect2⟩ := hwfu
      have hsh : a1.length = a2.length
          ∧ (a1.headD []).length = (a2.headD []).length
          ∧ ((a1.headD []).headD []).length = ((a2.headD []).headD []).length
          ∧ (((a1.headD []).headD []).headD []).length
              = (((a2.headD []).headD []).headD []).length := by
        simp only [shapeOf, List.cons.injEq] at hshape
        exact ⟨hshape.1, hshape.2.1, hshape.2.2.1, hshape.2.2.2.1⟩
      have hrect2b : rect4 a2.length (a1.headD []).length
          ((a1.headD []).headD []).length
          (((a1.headD []).headD []).headD []).length a2 := by
        rw [hsh.2.1, hsh.2.2.1, hsh.2.2.2]
        exact hrect2
      have hvk1 : viewTotalk a1
          = (a1.headD []).length * (((a1.headD []).headD []).headD []).length :=
        viewTotalk_eq hrect1 hO1 hI1 hH1
      have hvk2 : viewTotalk a2
          = (a1.headD []).length * (((a1.headD []).headD []).headD []).length :=
        viewTotalk_eq hrect2b (by omega) (by rwa [← hsh.2.1] at hI2)
          (by rwa [← hsh.2.2.1] at hH2)
      have hv21 : viewTotalk a2 = viewTotalk a1 := by rw [hvk1, hvk2]
      simp only [totalkOf] at htopk
      have htk1 : capTk cfg (viewTotalk a1) = viewTotalk a1 := by unfold capTk; omega
      have hrk1 : capRk cfg (viewTotalk a1) = 0 := by unfold capRk; rw [hrandk]; omega
      have htk2 : capTk cfg (viewTotalk a2) = viewTotalk a2 := by
        unfold capTk; omega
      have hrk2 : capRk cfg (viewTotalk a2) = 0 := by unfold capRk; rw [hrandk]; omega
      have hcpos : 0 < viewTotalk a1 := by
        rw [hvk1]
        exact Nat.mul_pos hI1 hW1
      obtain ⟨hd1, hcaeq⟩ := compressT_t4 hca
      rw [htk1, hrk1] at hcaeq
      obtain ⟨hd2, hcbeq⟩ := compressT_t4 hcb
      rw [htk2, hrk2, hv21] at hcbeq
      subst hcaeq
      subst hcbeq
      have hview1 := rearrange4_rect hrect1 hI1
      have hview2 : rect3 a2.length (((a1.headD []).headD []).length)
          ((a1.headD []).length * (((a1.headD []).headD []).headD []).length)
          (rearrange4 a2) :=
        rearrange4_rect hrect2b (by rwa [← hsh.2.1] at hI2)
      have hrectv1 : ∀ s ∈ rearrange4 a1,
          rect2 (((a1.headD []).headD []).length) (viewTotalk a1) s := by
        intro s hs
        rw [hvk1]
        exact hview1.2 s hs
      have hrectv2 : ∀ s ∈ rearrange4 a2,
          rect2 (((a1.headD []).headD []).length) (viewTotalk a1) s := by
        intro s hs
        rw [hvk1]
        exact hview2.2 s hs
      have hvlen : (rearrange4 a1).length = (rearrange4 a2).length := by
        rw [hview1.1, hview2.1, hsh.1]
      have hslices1 : ∀ s ∈ rearrange4 a1, s.length = ((a1.headD []).headD []).length :=
        fun s hs => (hview1.2 s hs).1
      have hslices2 : ∀ s ∈ rearrange4 a2, s.length = ((a1.headD []).headD []).length :=
        fun s hs => (hview2.2 s hs).1
      have hlenA : ((rows3 (viewTotalk a1) 0 g (rearrange4 a2)).map
            (fun s => s.map Prod.fst)).length
          = ((rows3 (viewTotalk a1) 0 f (rearrange4 a1)).map
            (fun s => s.map Prod.fst)).length := by
        rw [List.length_map, List.length_map, rows3_length, rows3_length, hvlen]
      have hlenB : ((rows3 (viewTotalk a1) 0 g (rearrange4 a2)).map
            (fun s => s.map Prod.snd)).length
          = ((rows3 (viewTotalk a1) 0 f (rearrange4 a1)).map
            (fun s => s.map Prod.snd)).length := by
        rw [List.length_map, List.length_map, rows3_length, rows3_length, hvlen]
      have hsliceEqA : ∀ p ∈ ((rows3 (viewTotalk a1) 0 g (rearrange4 a2)).map
            (fun s => s.map Prod.fst)).zip
          ((rows3 (viewTotalk a1) 0 f (rearrange4 a1)).map
            (fun s => s.map Prod.fst)),
          p.1.length = p.2.length := by
        intro p hp
        obtain ⟨hp1, hp2⟩ := List.of_mem_zip hp
        rcases List.mem_map.mp hp1 with ⟨s2, hs2, hs2p⟩
        rcases List.mem_map.mp hp2 with ⟨s1, hs1, hs1p⟩
        rw [← hs2p, ← hs1p, List.length_map, List.length_map,
          rows3_mem_length hslices2 s2 hs2, rows3_mem_length hslices1 s1 hs1]
      have hsliceEqB : ∀ p ∈ ((rows3 (viewTotalk a1) 0 g (rearrange4 a2)).map
            (fun s => s.map Prod.snd)).zip
          ((rows3 (viewTotalk a1) 0 f (rearrange4 a1)).map
            (fun s => s.map Prod.snd)),
          p.1.length = p.2.length := by
        intro p hp
        obtain ⟨hp1, hp2⟩ := List.of_mem_zip hp
        rcases List.mem_map.mp hp1 with ⟨s2, hs2, hs2p⟩
        rcases List.mem_map.mp hp2 with ⟨s1, hs1, hs1p⟩
        rw [← hs2p, ← hs1p, List.length_map, List.length_map,
          rows3_mem_length hslices2 s2 hs2, rows3_mem_length hslices1 s1 hs1]
      have hguard : (decide ((List.zipWith (fun x y => List.zipWith (· ++ ·) x y)
              ((rows3 (viewTotalk a1) 0 f (rearrange4 a1)).map
                (fun s => s.map Prod.fst))
              ((rows3 (viewTotalk a1) 0 g (rearrange4 a2)).map
                (fun s => s.map Prod.fst))).length ≤ a1.length)
          && decide ((List.zipWith (fun x y => List.zipWith (· ++ ·) x y)
              ((rows3 (viewTotalk a1) 0 f (rearrange4 a1)).map
                (fun s => s.map Prod.fst))
              ((rows3 (viewTotalk a1) 0 g (rearrange4 a2)).map
                (fun s => s.map Prod.fst))).length
            ≤ (List.zipWith (fun x y => List.zipWith (· ++ ·) x y)
              ((rows3 (viewTotalk a1) 0 f (rearrange4 a1)).map
                (fun s => s.map Prod.snd))
              ((rows3 (viewTotalk a1) 0 g (rearrange4 a2)).map
                (fun s => s.map Prod.snd))).length)
          && ((List.zipWith (fun x y => List.zipWith (· ++ ·) x y)
              ((rows3 (viewTotalk a1) 0 f (rearrange4 a1)).map
                (fun s => s.map Prod.fst))
              ((rows3 (viewTotalk a1) 0 g (rearrange4 a2)).map
                (fun s => s.map Prod.fst))).zip
            (List.zipWith (fun x y => List.zipWith (· ++ ·) x y)
              ((rows3 (viewTotalk a1) 0 f (rearrange4 a1)).map
                (fun s => s.map Prod.snd))
              ((rows3 (viewTotalk a1) 0 g (rearrange4 a2)).map
                (fun s => s.map Prod.snd)))).all
            (fun p => decide (p.1.length ≤ ((a1.headD []).headD []).length)
              && okRows ((a1.headD []).length
                  * (((a1.headD []).headD []).headD []).length) p.1 p.2)) = true := by
        rw [Bool.and_eq_true, Bool.and_eq_true]
        refine ⟨⟨?_, ?_⟩, ?_⟩
        · simp [List.length_zipWith, List.length_map, rows3_length, hview1.1, hvlen]
        · simp [List.length_zipWith, List.length_map, rows3_length]
        · rw [← hvk1, List.all_eq_true]
          intro p hp
          exact rows3_merge_prop (viewTotalk a1) f g (rearrange4 a1) (rearrange4 a2)
            hcpos (((a1.headD []).headD []).length) hvlen hrectv1 hrectv2 p hp
      have hview2b : rect3 a1.length (((a1.headD []).headD []).length)
          ((a1.headD []).length * (((a1.headD []).headD []).headD []).length)
          (rearrange4 a2) := by
        rw [hsh.1]
        exact hview2
      have hdec : decompress4
          (List.zipWith (fun x y => List.zipWith (· ++ ·) x y)
            ((rows3 (viewTotalk a1) 0 f (rearrange4 a1)).map (fun s => s.map Prod.fst))
            ((rows3 (viewTotalk a1) 0 g (rearrange4 a2)).map (fun s => s.map Prod.fst)))
          (List.zipWith (fun x y => List.zipWith (· ++ ·) x y)
            ((rows3 (viewTotalk a1) 0 f (rearrange4 a1)).map (fun s => s.map Prod.snd))
            ((rows3 (viewTotalk a1) 0 g (rearrange4 a2)).map (fun s => s.map Prod.snd)))
          a1.length (a1.headD []).length ((a1.headD []).headD []).length
          (((a1.headD []).headD []).headD []).length
          = some (List.zipWith
              (fun p1 p2 => List.zipWith
                (fun q1 q2 => List.zipWith
                  (fun r1 r2 => List.zipWith (· + ·) r1 r2) q1 q2) p1 p2)
              a1 a2) := by
        unfold decompress4
        rw [if_pos hguard, rearrange4_zeros hI1, ← hvk1,
          rows3_merge_scatter (viewTotalk a1) f g (rearrange4 a1) (rearrange4 a2)
            hcpos (((a1.headD []).headD []).length) a1.length hview1.1.symm hvlen
            hrectv1 hrectv2,
          invRearrange4_add hview1 hview2b hH1]
        rw [invRearrange4_rearrange4 hrect1 hI1 hH1 hW1,
          invRearrange4_rearrange4 hrect2b (by rwa [← hsh.2.1] at hI2)
            (by rwa [← hsh.2.2.1] at hH2) (by rwa [← hsh.2.2.2] at hW2)]
      simp only [batchDecompressT, optMapM, Option.some_bind, Option.map_some',
        List.map_cons, List.map_nil]
      rw [concatLast3_pair _ _ hlenA hsliceEqA, concatLast3_pair _ _ hlenB hsliceEqB]
      simp only [Option.some_bind]
      rw [hdec]
      rfl

/-- Witness for C2: merging the topk = totalk = 2, randk = 0 compressions of
[[1, 2]] and [[3, 4]] decompresses to their exact sum [[4, 6]]. -/
theorem merge_additivity_witness :
    wfT (Tensor.t2 [[1, 2]]) ∧ wfT (Tensor.t2 [[3, 4]])
      ∧ shapeOf (Tensor.t2 [[1, 2]]) = shapeOf (Tensor.t2 [[3, 4]])
      ∧ batchDecompressT
          [Compressed.c2 [[1, 0]] [[2, 1]] 1 2, Compressed.c2 [[1, 0]] [[4, 3]] 1 2]
        = some (addT (Tensor.t2 [[1, 2]]) (Tensor.t2 [[3, 4]])) :=
  ⟨by decide, by decide, by decide,
    merge_additivity ⟨2, 0⟩ (fun _ _ _ => 0) (fun _ _ _ => 0)
      (Tensor.t2 [[1, 2]]) (Tensor.t2 [[3, 4]])
      (Compressed.c2 [[1, 0]] [[2, 1]] 1 2) (Compressed.c2 [[1, 0]] [[4, 3]] 1 2)
      (by decide) (by decide) (by decide) rfl rfl (by decide) (by decide)⟩

end Distro
